import Mathlib

/-!
Verification development for the SQL token-grouping engine and reindent
walker of this sqlparse fork.

The grouping passes (`src/sqlparse/engine/grouping.py`), the reindent
walker (`src/sqlparse/filters/statement_sections_splitter.py`,
`src/sqlparse/filters/reindent.py`) and the spaces-around-operators
filter (`src/sqlparse/filters/others.py`) are embedded shallowly below.
The token/token-list data model (`sqlparse/sql.py`, `sqlparse/tokens.py`)
and the helpers (`sqlparse/utils.py`) are not part of the provided
sources; the definitions for them are modelled from the specification
(sections 3 and 4.1) and are marked `Modelled from the spec:` in their
doc comments.

Python loops that scan a token list are rendered as fuel-based
recursions; the fuel supplied by each pass is large enough for the
concrete computations below, and all invariance theorems are proved for
every fuel value.
-/

namespace SqlParse

/-- Modelled from the spec: the hierarchical lexical-type tags of section 3.
`Str`/`Num` stand for the source's `String`/`Number` tags. -/
inductive TTy where
  | Punctuation
  | Keyword
  | KeywordDML
  | KeywordDDL
  | KeywordCTE
  | KeywordOrder
  | KeywordTZCast
  | Name
  | NameBuiltin
  | NamePlaceholder
  | Num
  | NumInteger
  | NumFloat
  | Str
  | StrSingle
  | StrSymbol
  | Operator
  | OperatorComparison
  | Wildcard
  | Whitespace
  | WhitespaceNewline
  | Comment
  | Assignment
  deriving DecidableEq, Repr

/-- Modelled from the spec: the ancestor chain of a lexical tag (the tag
itself first).  `Keyword.DML` is below `Keyword`, `Whitespace.Newline`
below `Whitespace`, and so on. -/
def TTy.ancestors : TTy → List TTy
  | .KeywordDML => [.KeywordDML, .Keyword]
  | .KeywordDDL => [.KeywordDDL, .Keyword]
  | .KeywordCTE => [.KeywordCTE, .Keyword]
  | .KeywordOrder => [.KeywordOrder, .Keyword]
  | .KeywordTZCast => [.KeywordTZCast, .Keyword]
  | .NameBuiltin => [.NameBuiltin, .Name]
  | .NamePlaceholder => [.NamePlaceholder, .Name]
  | .NumInteger => [.NumInteger, .Num]
  | .NumFloat => [.NumFloat, .Num]
  | .StrSingle => [.StrSingle, .Str]
  | .StrSymbol => [.StrSymbol, .Str]
  | .OperatorComparison => [.OperatorComparison, .Operator]
  | .WhitespaceNewline => [.WhitespaceNewline, .Whitespace]
  | t => [t]

/-- Modelled from the spec: `a.ttIn b` is Python's `a in b` on token
types: `b` is `a` or an ancestor of `a`. -/
def TTy.ttIn (a b : TTy) : Bool := b ∈ a.ancestors

/-- Modelled from the spec: the group kinds of section 3. -/
inductive Kind where
  | Statement
  | StatementSelect
  | StatementInsert
  | StatementUnion
  | Parenthesis
  | SquareBrackets
  | Case
  | If
  | For
  | Begin
  | Function
  | WindowFunction
  | Identifier
  | SignedIdentifier
  | IdentifierList
  | Operation
  | Comparison
  | Assignment
  | TypedLiteral
  | ConditionsList
  | Comment
  | SubQuery
  | Values
  | ClauseWhere
  | ClauseFrom
  | ClauseWith
  | ClauseInsert
  | ClauseGroupBy
  | ClauseOrderBy
  | ClausePartitionBy
  | SelectProjection
  deriving DecidableEq, Repr

/-- Modelled from the spec: the attributes attached to groups during
grouping (section 3, "Attached attributes"); only the ones the claims
touch are carried. -/
structure Attrs where
  is_codeBlockDelimiter : Bool := false
  is_subQuery : Bool := false
  conditions_count : Nat := 0
  deriving DecidableEq, Repr

instance : Inhabited Attrs := ⟨{}⟩

/-- Modelled from the spec: a token is either a lexical leaf (type tag and
verbatim value) or a group with a kind, attributes and ordered children. -/
inductive Tok where
  | tok (tt : TTy) (value : String)
  | grp (kind : Kind) (attrs : Attrs) (children : List Tok)
  deriving Repr

mutual

/-- Decidable equality of tokens. -/
def decEqTok : (a b : Tok) → Decidable (a = b)
  | .tok t1 v1, .tok t2 v2 =>
      if h : t1 = t2 ∧ v1 = v2 then isTrue (by rw [h.1, h.2])
      else isFalse (by intro he; cases he; exact h ⟨rfl, rfl⟩)
  | .tok _ _, .grp _ _ _ => isFalse (by intro h; cases h)
  | .grp _ _ _, .tok _ _ => isFalse (by intro h; cases h)
  | .grp k1 a1 c1, .grp k2 a2 c2 =>
      match decEqTokList c1 c2 with
      | isTrue h3 =>
          if h : k1 = k2 ∧ a1 = a2 then isTrue (by rw [h.1, h.2, h3])
          else isFalse (by intro he; cases he; exact h ⟨rfl, rfl⟩)
      | isFalse h3 => isFalse (by intro he; cases he; exact h3 rfl)

/-- Decidable equality of token lists. -/
def decEqTokList : (a b : List Tok) → Decidable (a = b)
  | [], [] => isTrue rfl
  | [], _ :: _ => isFalse (by intro h; cases h)
  | _ :: _, [] => isFalse (by intro h; cases h)
  | x :: xs, y :: ys =>
      match decEqTok x y, decEqTokList xs ys with
      | isTrue h1, isTrue h2 => isTrue (by rw [h1, h2])
      | isFalse h1, _ => isFalse (by intro he; injection he; contradiction)
      | _, isFalse h2 => isFalse (by intro he; injection he; contradiction)

end

instance : DecidableEq Tok := decEqTok

instance : DecidableEq (List Tok) := decEqTokList

mutual

/-- In-order flatten of leaf values: the lexical content of a tree. -/
def Tok.flatT : Tok → List String
  | .tok _ v => [v]
  | .grp _ _ cs => flatL cs

/-- In-order flatten of a token list's leaf values. -/
def Tok.flatL : List Tok → List String
  | [] => []
  | t :: ts => flatT t ++ flatL ts

end

open Tok

theorem flatL_append (a b : List Tok) : flatL (a ++ b) = flatL a ++ flatL b := by
  induction a with
  | nil => rfl
  | cons t ts ih => simp [flatL, ih]

mutual

/-- A size measure used as fuel for the scanning loops. -/
def Tok.size : Tok → Nat
  | .tok _ _ => 1
  | .grp _ _ cs => 1 + sizeL cs

/-- Size of a token list. -/
def Tok.sizeL : List Tok → Nat
  | [] => 0
  | t :: ts => t.size + sizeL ts

end

def Tok.is_group : Tok → Bool
  | .grp _ _ _ => true
  | _ => false

def Tok.kindOf : Tok → Option Kind
  | .grp k _ _ => some k
  | _ => none

def Tok.ttype : Tok → Option TTy
  | .tok tt _ => some tt
  | _ => none

def Tok.attrsOf : Tok → Attrs
  | .grp _ a _ => a
  | _ => {}

def Tok.childrenOf : Tok → List Tok
  | .grp _ _ cs => cs
  | _ => []

/-- Modelled from the spec: `is_whitespace` holds for leaves whose type
is in the `Whitespace` hierarchy. -/
def Tok.is_whitespace : Tok → Bool
  | .tok tt _ => tt.ttIn .Whitespace
  | _ => false

/-- Modelled from the spec: `is_keyword` holds for leaves whose type is
in the `Keyword` hierarchy. -/
def Tok.is_keyword : Tok → Bool
  | .tok tt _ => tt.ttIn .Keyword
  | _ => false

/-- Upper-case an ASCII letter, as `str.upper` does on the keyword
values compared by the source. -/
def upChar (c : Char) : Char :=
  if c.toNat ≥ 97 && c.toNat ≤ 122 then Char.ofNat (c.toNat - 32) else c

/-- Upper-case a string character by character. -/
def strUpper (s : String) : String := ⟨s.data.map upChar⟩

/-- Concatenate a list of strings. -/
def sjoin : List String → String
  | [] => ""
  | s :: ss => s ++ sjoin ss

/-- Modelled from the spec: a token's `value`; for a group it is the
concatenation of the flattened leaf values (the serialized text). -/
def Tok.value : Tok → String
  | .tok _ v => v
  | .grp _ _ cs => sjoin (flatL cs)

/-- Modelled from the spec: `normalized` is the value, upper-cased for
keywords (keyword comparisons are case-insensitive by normalization). -/
def Tok.normalized (t : Tok) : String :=
  if t.is_keyword then strUpper t.value else t.value

/-- Substring test on character lists, used to model `re.search` with the
literal keyword patterns of the reindent walker. -/
def listContainsSub (p : List Char) : List Char → Bool
  | [] => p.isEmpty
  | c :: cs => p.isPrefixOf (c :: cs) || listContainsSub p cs

/-- Substring test on strings. -/
def strContainsSub (p s : String) : Bool := listContainsSub p.toList s.toList

/-- Modelled from the spec: `token.match(lex_type, values)` — the token's
lexical type is a subtype of the given tag and, when a value set is
supplied, the (keyword-normalized) value is in the set. -/
def Tok.mtch (t : Tok) (tt : TTy) (vals : Option (List String)) : Bool :=
  match t with
  | .tok tt' _ =>
      tt'.ttIn tt &&
        (match vals with
         | none => true
         | some vs =>
             if t.is_keyword then (vs.map strUpper).contains t.normalized
             else vs.contains t.value)
  | .grp _ _ _ => false

/-- Modelled from the spec: `token.match(lex_type, values, regex=true)` —
each pattern is searched inside the normalized value; the regex patterns
of the source are approximated by substring search on their keyword
cores, which is exact for the plain-word patterns used here. -/
def Tok.mtchRx (t : Tok) (tt : TTy) (vals : List String) : Bool :=
  match t with
  | .tok tt' _ => tt'.ttIn tt && vals.any fun p => strContainsSub p t.normalized
  | .grp _ _ _ => false

/-- Python truthiness of an optional index (`None` and `0` are falsy). -/
def truthy : Option Nat → Bool
  | some n => n != 0
  | none => false

/-- First index `≥ i` (into the original list) of an element of `ts`
satisfying `p`, where `ts` is the suffix of the original list starting at
`i`. -/
def scanAux (p : Tok → Bool) : List Tok → Nat → Option Nat
  | [], _ => none
  | t :: ts, i => if p t then some i else scanAux p ts (i + 1)

/-- First index `≥ start` in `l` whose token satisfies `p`. -/
def scanFrom (p : Tok → Bool) (l : List Tok) (start : Nat) : Option Nat :=
  scanAux p (l.drop start) start

/-- Last index `≥ i` of an element satisfying `p`, accumulator form. -/
def scanLastAux (p : Tok → Bool) : List Tok → Nat → Option Nat → Option Nat
  | [], _, acc => acc
  | t :: ts, i, acc => scanLastAux p ts (i + 1) (if p t then some i else acc)

/-- Last index `< bound` (scanning backward from `bound - 1`) of an
element of `l` satisfying `p`. -/
def scanBack (p : Tok → Bool) (l : List Tok) (bound : Nat) : Option Nat :=
  scanLastAux p (l.take bound) 0 none

/-- Modelled from the spec: tokens skipped by the `skip_ws`/`skip_cm`
flags — whitespace leaves, comment-typed leaves and `Comment` groups. -/
def skippable (skipWs skipCm : Bool) (t : Tok) : Bool :=
  (skipWs && t.is_whitespace) ||
    (skipCm && (match t with
      | .tok tt _ => tt.ttIn .Comment
      | .grp k _ _ => k = Kind.Comment))

/-- Modelled from the spec: `token_next(idx)` — the next child after
index `idx` honoring the skip flags, with its index. -/
def token_next (l : List Tok) (idx : Nat) (skipWs : Bool := true)
    (skipCm : Bool := true) : Option (Nat × Tok) :=
  match scanFrom (fun t => !skippable skipWs skipCm t) l (idx + 1) with
  | some j => match l.get? j with
              | some t => some (j, t)
              | none => none
  | none => none

/-- Modelled from the spec: `token_prev(idx)` — the previous child before
index `idx` honoring the skip flags, with its index. -/
def token_prev (l : List Tok) (idx : Nat) (skipWs : Bool := true)
    (skipCm : Bool := true) : Option (Nat × Tok) :=
  match scanBack (fun t => !skippable skipWs skipCm t) l idx with
  | some j => match l.get? j with
              | some t => some (j, t)
              | none => none
  | none => none

/-- Modelled from the spec: `token_next_by` — the first child at an index
`> idx` matching the predicate (no whitespace skipping), with its index.
`idx = none` encodes the Python default `idx=-1` (search from 0). -/
def token_next_by (p : Tok → Bool) (l : List Tok) (idx : Option Nat := none) :
    Option (Nat × Tok) :=
  let start := match idx with | none => 0 | some i => i + 1
  match scanFrom p l start with
  | some j => match l.get? j with
              | some t => some (j, t)
              | none => none
  | none => none

/-- Modelled from the spec: backward variant of `token_next_by`, first
matching child strictly before `idx`. -/
def token_prev_by (p : Tok → Bool) (l : List Tok) (idx : Nat) :
    Option (Nat × Tok) :=
  match scanBack p l idx with
  | some j => match l.get? j with
              | some t => some (j, t)
              | none => none
  | none => none

/-- Modelled from the spec: `token_not_matching` — first child at index
`> idx` for which the predicate fails. -/
def token_not_matching (p : Tok → Bool) (l : List Tok) (idx : Nat) :
    Option (Nat × Tok) :=
  token_next_by (fun t => !p t) l (some idx)

/-- Insert `x` at position `i` (append when `i` exceeds the length),
mirroring `list.insert`. -/
def insertAt (l : List Tok) (i : Nat) (x : Tok) : List Tok :=
  l.take i ++ x :: l.drop i

/-- Modelled from the spec: `group_tokens(kind, from, to, extend)` —
replace the slice `[from..=to]` by one group of `kind` with that slice as
children; with `extend` set and the child at `from` already of `kind`,
the rest of the slice is absorbed into that existing group.  Returns
`none` on an invalid span (the callers that guard with `try` treat that
as the swallowed exception). -/
def group_tokens (k : Kind) (fromI toI : Nat) (ext : Bool) (l : List Tok) :
    Option (List Tok) :=
  if fromI ≤ toI ∧ toI < l.length then
    match ext, (l.drop fromI).take (toI + 1 - fromI) with
    | true, .grp k' a cs :: rest =>
        if k' = k then
          some (l.take fromI ++ .grp k a (cs ++ rest) :: l.drop (toI + 1))
        else
          some (l.take fromI ++
            .grp k {} ((l.drop fromI).take (toI + 1 - fromI)) :: l.drop (toI + 1))
    | _, _ =>
        some (l.take fromI ++
          .grp k {} ((l.drop fromI).take (toI + 1 - fromI)) :: l.drop (toI + 1))
  else none

/-- The fatal errors of the grouping pipeline (section 7): the
unbalanced-parenthesis error, the missing-tail `InvalidSyntax` errors,
and an uncaught internal failure. -/
inductive GErr where
  | unbalancedParenthesis
  | invalidSyntax (clause : String)
  | internal
  deriving DecidableEq, Repr

mutual

/-- `_group_matching`, loop body: scan the children in order keeping the
processed prefix `out` and a stack of open positions; recurse into groups
of a different kind; on a close with empty stack skip it; otherwise wrap
`[open..=close]` into a group of `cls`.  Running out of fuel returns the
current list (the supplied fuel, one beyond the subtree size, never
does). -/
def gmGo (cls : Kind) (mOpen mClose : Tok → Bool) :
    Nat → List Tok → List Tok → List Nat → List Tok
  | 0, l, out, _ => out ++ l
  | _ + 1, [], out, _ => out
  | fuel + 1, t :: rest, out, opens =>
    if t.is_whitespace then gmGo cls mOpen mClose fuel rest (out ++ [t]) opens
    else if t.is_group && t.kindOf != some cls then
      gmGo cls mOpen mClose fuel rest (out ++ [gmTok cls mOpen mClose fuel t]) opens
    else if mOpen t then
      gmGo cls mOpen mClose fuel rest (out ++ [t]) (out.length :: opens)
    else if mClose t then
      match opens with
      | [] => gmGo cls mOpen mClose fuel rest (out ++ [t]) []
      | oi :: os =>
          gmGo cls mOpen mClose fuel rest
            (out.take oi ++ [.grp cls {} (out.drop oi ++ [t])]) os
    else gmGo cls mOpen mClose fuel rest (out ++ [t]) opens

/-- `_group_matching` applied to a node: groups the children of a group
token; a leaf is left unchanged. -/
def gmTok (cls : Kind) (mOpen mClose : Tok → Bool) : Nat → Tok → Tok
  | 0, t => t
  | _ + 1, .tok tt v => .tok tt v
  | fuel + 1, .grp k a cs => .grp k a (gmGo cls mOpen mClose fuel cs [] [])

end

/-- `_group_matching` entry point. -/
def _group_matching (cls : Kind) (mOpen mClose : Tok → Bool) (t : Tok) : Tok :=
  gmTok cls mOpen mClose (t.size + 1) t

/-- `Parenthesis.M_OPEN`: a `(` punctuation token. -/
def parenOpen (t : Tok) : Bool := t.mtch .Punctuation (some ["("])

/-- `Parenthesis.M_CLOSE`: a `)` punctuation token. -/
def parenClose (t : Tok) : Bool := t.mtch .Punctuation (some [")"])

mutual

/-- `group_parenthesis`, loop body.  Like `_group_matching` but the open
stack also records the two discriminants read at open time (previous
non-ws token is `THEN`/`AS`; next non-ws token is the DML `SELECT`), and
a close with an empty stack raises the unbalanced-parenthesis error. -/
def gparenGo : Nat → List Tok → List Tok → List (Nat × Bool × Bool) →
    Except GErr (List Tok)
  | 0, l, out, _ => .ok (out ++ l)
  | _ + 1, [], out, _ => .ok out
  | fuel + 1, t :: rest, out, opens =>
    if t.is_whitespace then gparenGo fuel rest (out ++ [t]) opens
    else if t.is_group && t.kindOf != some Kind.Parenthesis then do
      let t' ← gparenTok fuel t
      gparenGo fuel rest (out ++ [t']) opens
    else if parenOpen t then
      let isBlock := match token_prev (out ++ t :: rest) out.length with
                     | some (_, p) => p.mtch .Keyword (some ["THEN", "AS"])
                     | none => false
      let isSub := match token_next (out ++ t :: rest) out.length with
                   | some (_, n) => n.mtch .KeywordDML (some ["SELECT"])
                   | none => false
      gparenGo fuel rest (out ++ [t]) ((out.length, isBlock, isSub) :: opens)
    else if parenClose t then
      match opens with
      | [] => .error .unbalancedParenthesis
      | (oi, b, s) :: os =>
          gparenGo fuel rest
            (out.take oi ++
              [.grp .Parenthesis ⟨b, s, 0⟩ (out.drop oi ++ [t])]) os
    else gparenGo fuel rest (out ++ [t]) opens

/-- `group_parenthesis` applied to a node. -/
def gparenTok : Nat → Tok → Except GErr Tok
  | 0, t => .ok t
  | _ + 1, .tok tt v => .ok (.tok tt v)
  | fuel + 1, .grp k a cs => do
      let cs' ← gparenGo fuel cs [] []
      .ok (.grp k a cs')

end

mutual

/-- Modelled from the spec: the `recurse` decorator — process every
sublist first (skipping groups whose kind is excluded), then apply the
pass body `f` to the node itself. -/
def recNodeGo (excl : List Kind) (f : Tok → Except GErr Tok) :
    Nat → Tok → Except GErr Tok
  | 0, t => .ok t
  | _ + 1, .tok tt v => .ok (.tok tt v)
  | fuel + 1, .grp k a cs => do
      let cs' ← recChildren excl f fuel cs
      f (.grp k a cs')

/-- Children traversal of the `recurse` decorator. -/
def recChildren (excl : List Kind) (f : Tok → Except GErr Tok) :
    Nat → List Tok → Except GErr (List Tok)
  | 0, l => .ok l
  | _ + 1, [] => .ok []
  | fuel + 1, c :: cs => do
      let c' ← if c.is_group && !(match c.kindOf with
                                  | some k => excl.contains k
                                  | none => false) then
                 recNodeGo excl f fuel c
               else pure c
      let cs' ← recChildren excl f fuel cs
      .ok (c' :: cs')

end

/-- `recurse` decorator entry point. -/
def recNode (excl : List Kind) (f : Tok → Except GErr Tok) (t : Tok) :
    Except GErr Tok :=
  recNodeGo excl f (t.size + 1) t

/-- The parameters of the infix driver `_group`: the central matcher, the
neighbor validators, the span extender `post` (which may also update the
list, as `group_operator` and `group_conditions_list` do), the `extend`
flag and the `recurse` flag. -/
structure GSpec where
  cls : Kind
  mtc : Tok → Bool
  validPrev : Tok → Bool
  validNext : Option Tok → Bool
  post : List Tok → Nat → Nat → Option Nat →
    Option Nat × Option Nat × List Tok
  extend : Bool
  recurseG : Bool

mutual

/-- `_group`, cursor loop.  `pp` is the last non-whitespace
`(pidx, prev)` pair: on each non-whitespace token the driver first
recurses into it when it is a group of a different kind, then hands the
(possibly replaced) token to `ggoStep`.  Besides the list, the
accumulated `(from, to)` spans of every wrap performed (at any depth)
are returned. -/
def ggo (sp : GSpec) (fuel : Nat) (l : List Tok) (cursor : Nat)
    (pp : Option (Nat × Tok)) : Except GErr (List Tok × List (Nat × Nat)) :=
  match fuel with
  | 0 => .ok (l, [])
  | f + 1 =>
    match l.get? cursor with
    | none => .ok (l, [])
    | some t =>
      if t.is_whitespace then ggo sp f l (cursor + 1) pp
      else if sp.recurseG && t.is_group && t.kindOf != some sp.cls then
        match ggoTok { sp with recurseG := true } f t with
        | .error e => .error e
        | .ok (t', sA) => ggoStep sp f (l.set cursor t') cursor pp t' sA
      else ggoStep sp f l cursor pp t []
termination_by structural fuel

/-- `_group`, loop body on one non-whitespace token `t1`.  On a match
with valid neighbors, `post` computes the span; a falsy `from_idx`
(`None` or `0`) skips the wrap; a `None` `to_idx` with truthy `from_idx`
is the source's uncaught `range(tidx+1, None+1)` failure; otherwise
contained groups in `(tidx, to_idx]` are recursed into first, the span
is wrapped (a failing `group_tokens` is the swallowed exception:
scanning continues without a wrap), and the cursor resumes just after
the new group, which becomes the new `prev`. -/
def ggoStep (sp : GSpec) (fuel : Nat) (l : List Tok) (cursor : Nat)
    (pp : Option (Nat × Tok)) (t1 : Tok) (sA : List (Nat × Nat)) :
    Except GErr (List Tok × List (Nat × Nat)) :=
  match fuel with
  | 0 => .ok (l, sA)
  | f + 1 =>
  if sp.mtc t1 then
    match pp with
    | some (pidx, prev) =>
      if sp.validPrev prev && sp.validNext ((token_next l cursor).map (·.2)) then
        match sp.post l pidx cursor ((token_next l cursor).map (·.1)) with
        | (fromI, toI, l2) =>
          if truthy fromI then
            match fromI, toI with
            | some fi, some ti =>
                match preRec sp f l2 (cursor + 1) ti with
                | .error e => .error e
                | .ok (l3, sB) =>
                  match group_tokens sp.cls fi ti sp.extend l3 with
                  | some l4 =>
                      match l4.get? fi with
                      | some g =>
                          match ggo sp f l4 (fi + 1) (some (fi, g)) with
                          | .error e => .error e
                          | .ok (l5, sC) => .ok (l5, sA ++ sB ++ [(fi, ti)] ++ sC)
                      | none =>
                          match ggo sp f l4 (fi + 1) none with
                          | .error e => .error e
                          | .ok (l5, sC) => .ok (l5, sA ++ sB ++ [(fi, ti)] ++ sC)
                  | none =>
                      match ggo sp f l3 (cursor + 1) (some (cursor, t1)) with
                      | .error e => .error e
                      | .ok (l5, sC) => .ok (l5, sA ++ sB ++ sC)
            | _, none => .error .internal
            | none, _ => .error .internal
          else
            match ggo sp f l2 (cursor + 1) (some (cursor, t1)) with
            | .error e => .error e
            | .ok (l5, sC) => .ok (l5, sA ++ sC)
      else
        match ggo sp f l (cursor + 1) (some (cursor, t1)) with
        | .error e => .error e
        | .ok (l5, sC) => .ok (l5, sA ++ sC)
    | none =>
        match ggo sp f l (cursor + 1) (some (cursor, t1)) with
        | .error e => .error e
        | .ok (l5, sC) => .ok (l5, sA ++ sC)
  else
    match ggo sp f l (cursor + 1) (some (cursor, t1)) with
    | .error e => .error e
    | .ok (l5, sC) => .ok (l5, sA ++ sC)
termination_by structural fuel

/-- Pre-wrap recursion of `_group`: process contained groups at positions
`i..ti` before the span is collapsed. -/
def preRec (sp : GSpec) (fuel : Nat) (l : List Tok) (i ti : Nat) :
    Except GErr (List Tok × List (Nat × Nat)) :=
  match fuel with
  | 0 => .ok (l, [])
  | f + 1 =>
    if i > ti then .ok (l, [])
    else
      match l.get? i with
      | none => .ok (l, [])
      | some t =>
        if sp.recurseG && t.is_group && t.kindOf != some sp.cls then
          match ggoTok { sp with recurseG := true } f t with
          | .error e => .error e
          | .ok (t', s) =>
              match preRec sp f (l.set i t') (i + 1) ti with
              | .error e => .error e
              | .ok (l', s') => .ok (l', s ++ s')
        else preRec sp f l (i + 1) ti
termination_by structural fuel

/-- `_group` applied to a node: run the cursor loop on its children. -/
def ggoTok (sp : GSpec) (fuel : Nat) (t : Tok) :
    Except GErr (Tok × List (Nat × Nat)) :=
  match fuel with
  | 0 => .ok (t, [])
  | f + 1 =>
    match t with
    | .tok tt v => .ok (.tok tt v, [])
    | .grp k a cs =>
        match ggo sp f cs 0 none with
        | .error e => .error e
        | .ok (cs', s) => .ok (.grp k a cs', s)
termination_by structural fuel

end

/-- `_group` entry point: the pass is run on the node with fuel large
enough for every scan. -/
def _group (sp : GSpec) (t : Tok) : Except GErr Tok := do
  let (t', _) ← ggoTok sp (t.size * 4 + 16) t
  .ok t'

/-- Exact lexical-type membership, modelling Python's `ttype in (tuple)`
(tuple membership compares types for equality, not subtyping). -/
def ttEq (t : Tok) (ts : List TTy) : Bool :=
  match t.ttype with
  | some tt => ts.contains tt
  | none => false

/-- Subtype lexical-type test, modelling Python's `ttype in T.X` for a
single hierarchical tag. -/
def ttSub (t : Tok) (tt : TTy) : Bool :=
  match t.ttype with
  | some tt' => tt'.ttIn tt
  | none => false

/-- `isinstance(token, classes)` on group kinds. -/
def isKindIn (t : Tok) (ks : List Kind) : Bool :=
  match t.kindOf with
  | some k => ks.contains k
  | none => false

/-- Apply a children transformer to a group node (identity on leaves). -/
def onChildren (f : List Tok → Except GErr (List Tok)) : Tok → Except GErr Tok
  | .tok tt v => .ok (.tok tt v)
  | .grp k a cs => do
      let cs' ← f cs
      .ok (.grp k a cs')

/-- Set the lexical type of the leaf at index `i`
(`tlist[tidx].ttype = ...` in `group_operator`). -/
def setTType (l : List Tok) (i : Nat) (tt : TTy) : List Tok :=
  match l.get? i with
  | some (.tok _ v) => l.set i (.tok tt v)
  | _ => l

/-- Add `inc` to the `conditions_count` of the group at index `i`
(`ptoken.conditions_count += increment` in `group_conditions_list`). -/
def bumpCount (l : List Tok) (i : Nat) (inc : Nat) : List Tok :=
  match l.get? i with
  | some (.grp k a cs) =>
      l.set i (.grp k { a with conditions_count := a.conditions_count + inc } cs)
  | _ => l

/-- `group_brackets`. -/
def group_brackets (t : Tok) : Except GErr Tok :=
  .ok (_group_matching .SquareBrackets (fun tk => tk.mtch .Punctuation (some ["["]))
    (fun tk => tk.mtch .Punctuation (some ["]"])) t)

/-- `group_parenthesis`. -/
def group_parenthesis (t : Tok) : Except GErr Tok := gparenTok (t.size + 1) t

/-- `group_case` (`Case.M_OPEN`/`M_CLOSE` modelled from the spec as the
`CASE`/`END` keywords). -/
def group_case (t : Tok) : Except GErr Tok :=
  .ok (_group_matching .Case (fun tk => tk.mtch .Keyword (some ["CASE"]))
    (fun tk => tk.mtch .Keyword (some ["END"])) t)

/-- `group_if` (delimiters modelled from the spec: `IF` … `END IF`). -/
def group_if (t : Tok) : Except GErr Tok :=
  .ok (_group_matching .If (fun tk => tk.mtch .Keyword (some ["IF"]))
    (fun tk => tk.mtch .Keyword (some ["END IF"])) t)

/-- `group_for` (delimiters modelled from the spec: `FOR` … `END FOR`). -/
def group_for (t : Tok) : Except GErr Tok :=
  .ok (_group_matching .For (fun tk => tk.mtch .Keyword (some ["FOR"]))
    (fun tk => tk.mtch .Keyword (some ["END FOR"])) t)

/-- `group_begin` (delimiters modelled from the spec: `BEGIN` … `END`). -/
def group_begin (t : Tok) : Except GErr Tok :=
  .ok (_group_matching .Begin (fun tk => tk.mtch .Keyword (some ["BEGIN"]))
    (fun tk => tk.mtch .Keyword (some ["END"])) t)

/-- The shape shared by the search-loop passes: while the search result
`r` is a token (and its index passes the `while tidx:`-style guard), run
the per-hit `step` (which returns the updated list and the index to
resume from) and search again with `next`. -/
def passLoop (guard : Nat → Bool)
    (step : List Tok → Nat → Tok → Except GErr (List Tok × Nat))
    (next : List Tok → Nat → Option (Nat × Tok)) :
    Nat → List Tok → Option (Nat × Tok) → Except GErr (List Tok)
  | 0, cs, _ => .ok cs
  | fuel + 1, cs, r =>
    match r with
    | none => .ok cs
    | some (tidx, tk0) =>
        if guard tidx then
          match step cs tidx tk0 with
          | .error e => .error e
          | .ok (cs', cont) => passLoop guard step next fuel cs' (next cs' cont)
        else .ok cs

/-- Token skipped by `group_comments`' end search: comment-typed or
whitespace. -/
def commentRun (tk : Tok) : Bool := ttSub tk .Comment || tk.is_whitespace

/-- `group_comments`, loop body: collapse the run of comment tokens (with
interior whitespace) starting at `tidx` into a `Comment` group; a run
that extends to the end of the list is left alone (`end is None`). -/
def group_comments_step (cs : List Tok) (tidx : Nat) (_tok : Tok) :
    Except GErr (List Tok × Nat) :=
  match token_not_matching commentRun cs tidx with
  | some (eidx, _) =>
      match token_prev cs eidx false false with
      | some (eidx', _) =>
          match group_tokens .Comment tidx eidx' false cs with
          | some l => .ok (l, tidx)
          | none => .error GErr.internal
      | none => .error GErr.internal
  | none => .ok (cs, tidx)

/-- `group_comments` pass (decorated `@recurse(sql.Comment)`). -/
def group_comments (t : Tok) : Except GErr Tok :=
  recNode [.Comment]
    (onChildren fun cs =>
      passLoop (fun _ => true) group_comments_step
        (fun cs' cont => token_next_by (ttSub · .Comment) cs' (some cont))
        (cs.length + 1) cs (token_next_by (ttSub · .Comment) cs none)) t

/-- `group_functions`, loop body: a found name immediately followed
(skipping whitespace) by a `Parenthesis` is wrapped into a `Function`. -/
def group_functions_step (cs : List Tok) (tidx : Nat) (_tok : Tok) :
    Except GErr (List Tok × Nat) :=
  match token_next cs tidx with
  | some (nidx, nt) =>
      if nt.kindOf == some Kind.Parenthesis then
        match group_tokens .Function tidx nidx false cs with
        | some l => .ok (l, tidx)
        | none => .error GErr.internal
      else .ok (cs, tidx)
  | none => .ok (cs, tidx)

/-- `group_functions`, body: skipped entirely for a token list that
directly contains a token valued `CREATE` and one valued `TABLE`; the
first search is for `Name.Builtin` tokens, the subsequent searches use
the `Name` hierarchy. -/
def group_functions_body (cs : List Tok) : Except GErr (List Tok) :=
  if (cs.any fun c => c.value == "CREATE") && (cs.any fun c => c.value == "TABLE") then
    .ok cs
  else
    passLoop (fun _ => true) group_functions_step
      (fun cs' cont => token_next_by (ttSub · .Name) cs' (some cont))
      (cs.length + 1) cs (token_next_by (ttSub · .NameBuiltin) cs none)

/-- `group_functions` pass (decorated `@recurse(sql.Function)`). -/
def group_functions (t : Tok) : Except GErr Tok :=
  recNode [.Function] (onChildren group_functions_body) t

/-- `group_window_function` (`WindowFunction.M_OPEN` modelled from the
spec as the `OVER`/`FILTER` keywords). -/
def group_window_function (t : Tok) : Except GErr Tok :=
  _group
    { cls := .WindowFunction
      mtc := fun tk => tk.mtch .Keyword (some ["OVER", "FILTER"])
      validPrev := fun tk => isKindIn tk [.Function, .WindowFunction]
      validNext := fun tk? => match tk? with
        | some tk => isKindIn tk [.Parenthesis]
        | none => false
      post := fun l p tix n =>
        match l.get? tix with
        | some tokenT =>
            if tokenT.mtch .Keyword (some ["FILTER"]) then
              match n with
              | some ni =>
                  match token_next_by (fun tk =>
                      tk.mtch .Keyword (some ["OVER", "FROM"]) ||
                      tk.mtch .Punctuation (some [","])) l (some ni) with
                  | some (idxOver, tOver) =>
                      if tOver.mtch .Keyword (some ["OVER"]) then
                        (some p,
                          (token_next_by (fun tk => isKindIn tk [.Parenthesis]) l
                            (some idxOver)).map (·.1), l)
                      else (some p, n, l)
                  | none => (some p, n, l)
              | none => (some p, n, l)
            else (some p, n, l)
        | none => (some p, n, l)
      extend := true
      recurseG := true } t

/-- `group_period`. -/
def group_period (t : Tok) : Except GErr Tok :=
  let valid := fun tk =>
    isKindIn tk [.SquareBrackets, .Identifier] ||
      ttEq tk [.Name, .StrSymbol, .NamePlaceholder]
  _group
    { cls := .Identifier
      mtc := fun tk => tk.mtch .Punctuation (some ["."])
      validPrev := valid
      validNext := fun tk? => match tk? with
        | some tk => valid tk
        | none => false
      post := fun l p _ n => (some p, n, l)
      extend := true
      recurseG := true } t

/-- `group_arrays` (`recurse=False`). -/
def group_arrays (t : Tok) : Except GErr Tok :=
  _group
    { cls := .Identifier
      mtc := fun tk => isKindIn tk [.SquareBrackets]
      validPrev := fun tk =>
        isKindIn tk [.SquareBrackets, .Identifier, .Function] ||
          ttEq tk [.Name, .StrSymbol]
      validNext := fun _ => true
      post := fun l p tix _ => (some p, some tix, l)
      extend := true
      recurseG := false } t

/-- Exact name-or-symbol types lifted by `group_identifier`
(`(T.String.Symbol, T.Name)` as a tuple: exact type membership). -/
def gidTypes (tk : Tok) : Bool := ttEq tk [.StrSymbol, .Name]

/-- `group_identifier`, placeholder loop body: a placeholder absorbs an
adjacent name-like or `Identifier` neighbor on either side (the
`if pidx` truthiness excludes a previous neighbor at index 0). -/
def gid_ph_step (cs : List Tok) (tidx : Nat) (_tok : Tok) :
    Except GErr (List Tok × Nat) :=
  let n := token_next cs tidx false false
  let p := token_prev cs tidx false false
  let fromI := match p with
    | some (pidx, pt) =>
        if pidx != 0 && (gidTypes pt || isKindIn pt [.Identifier]) then pidx
        else tidx
    | none => tidx
  let toI := match n with
    | some (nidx, nt) =>
        if gidTypes nt || isKindIn nt [.Identifier] then nidx else tidx
    | none => tidx
  match group_tokens .Identifier fromI toI false cs with
  | some l => .ok (l, tidx)
  | none => .error GErr.internal

/-- `group_identifier`, plain-name loop body: lift the bare `Name` or
`String.Symbol` token to an `Identifier`. -/
def gid_name_step (cs : List Tok) (tidx : Nat) (_tok : Tok) :
    Except GErr (List Tok × Nat) :=
  match group_tokens .Identifier tidx tidx false cs with
  | some l => .ok (l, tidx)
  | none => .error GErr.internal

/-- `group_identifier` pass (decorated `@recurse(sql.Identifier)`).  The
placeholder loop is faithful to the source's `while tidx:` guard: a
placeholder found at index 0 ends that loop. -/
def group_identifier (t : Tok) : Except GErr Tok :=
  recNode [.Identifier]
    (onChildren fun cs => do
      let cs1 ← passLoop (fun i => i != 0) gid_ph_step
        (fun cs' cont => token_next_by (ttSub · .NamePlaceholder) cs' (some cont))
        (cs.length + 1) cs (token_next_by (ttSub · .NamePlaceholder) cs none)
      passLoop (fun _ => true) gid_name_step
        (fun cs' cont => token_next_by gidTypes cs' (some cont))
        (cs1.length + 1) cs1 (token_next_by gidTypes cs1 none)) t

/-- `group_signed_identifier`, loop body: a sign whose next neighbor is
an `Identifier` and whose previous neighbor is absent (`not pidx` also
holds at index 0) or not an `Identifier` is wrapped with it. -/
def gsigned_step (cs : List Tok) (tidx : Nat) (_tok : Tok) :
    Except GErr (List Tok × Nat) :=
  let n := token_next cs tidx
  let p := token_prev cs tidx
  match n with
  | some (nidx, nt) =>
      if isKindIn nt [.Identifier] &&
          (match p with
           | some (pidx, pt) => pidx == 0 || !(isKindIn pt [.Identifier])
           | none => true) then
        match group_tokens .SignedIdentifier tidx nidx false cs with
        | some l => .ok (l, tidx)
        | none => .error GErr.internal
      else .ok (cs, tidx)
  | none => .ok (cs, tidx)

/-- `group_signed_identifier` pass (decorated
`@recurse(sql.SignedIdentifier)`).  The pattern `(T.Operator, '-',
False)` is passed as `t=` in the source, so by tuple membership it
matches any token whose type is exactly `Operator`; the `while tidx:`
guard also ends the loop on index 0. -/
def group_signed_identifier (t : Tok) : Except GErr Tok :=
  recNode [.SignedIdentifier]
    (onChildren fun cs =>
      passLoop (fun i => i != 0) gsigned_step
        (fun cs' cont => token_next_by (ttEq · [.Operator]) cs' (some cont))
        (cs.length + 1) cs (token_next_by (ttEq · [.Operator]) cs none)) t

/-- `group_order`, loop body: an `Identifier` or number directly before
the `ASC`/`DESC` keyword is wrapped together with it, and the search
resumes from the wrap position. -/
def gorder_step (cs : List Tok) (tidx : Nat) (_tok : Tok) :
    Except GErr (List Tok × Nat) :=
  match token_prev cs tidx with
  | some (pidx, pt) =>
      if isKindIn pt [.Identifier] || ttSub pt .Num then
        match group_tokens .Identifier pidx tidx false cs with
        | some l => .ok (l, pidx)
        | none => .error GErr.internal
      else .ok (cs, tidx)
  | none => .ok (cs, tidx)

/-- `group_order` pass (no recursion in the source). -/
def group_order (t : Tok) : Except GErr Tok :=
  onChildren (fun cs =>
    passLoop (fun _ => true) gorder_step
      (fun cs' cont => token_next_by (ttSub · .KeywordOrder) cs' (some cont))
      (cs.length + 1) cs (token_next_by (ttSub · .KeywordOrder) cs none)) t

/-- `group_typecasts`. -/
def group_typecasts (t : Tok) : Except GErr Tok :=
  _group
    { cls := .Identifier
      mtc := fun tk => tk.mtch .Punctuation (some ["::"])
      validPrev := fun _ => true
      validNext := fun tk? => tk?.isSome
      post := fun l p _ n => (some p, n, l)
      extend := true
      recurseG := true } t

/-- `group_tzcasts` (`token.ttype == T.Keyword.TZCast`: exact type). -/
def group_tzcasts (t : Tok) : Except GErr Tok :=
  _group
    { cls := .Identifier
      mtc := fun tk => tk.ttype == some TTy.KeywordTZCast
      validPrev := fun _ => true
      validNext := fun tk? => tk?.isSome
      post := fun l p _ n => (some p, n, l)
      extend := true
      recurseG := true } t

/-- `TypedLiteral.M_OPEN`, modelled from the spec (builtin type names or
the `DATE`/`TIME`/`TIMESTAMP`/`INTERVAL` keywords). -/
def typedLitOpen (tk : Tok) : Bool :=
  tk.mtch .NameBuiltin none ||
    tk.mtch .Keyword (some ["DATE", "TIME", "TIMESTAMP", "INTERVAL"])

/-- `TypedLiteral.M_CLOSE`, modelled from the spec (a single-quoted
string literal). -/
def typedLitClose (tk : Tok) : Bool := tk.mtch .StrSingle none

/-- `TypedLiteral.M_EXTEND`, modelled from the spec (an interval unit
keyword). -/
def typedLitExtend (tk : Tok) : Bool :=
  tk.mtch .Keyword (some ["DAY", "HOUR", "MINUTE", "SECOND", "MONTH", "YEAR"])

/-- `group_typed_literal`, phase 1: the initial wrap, spanning
`(tidx, nidx)` — a typed literal starting at child index 0 is never
wrapped (`if from_idx:`). -/
def typedLitSpec1 : GSpec :=
  { cls := .TypedLiteral
    mtc := typedLitOpen
    validPrev := fun _ => true
    validNext := fun tk? => match tk? with
      | some tk => typedLitClose tk
      | none => false
    post := fun l _ tix n => (some tix, n, l)
    extend := false
    recurseG := true }

/-- `group_typed_literal`, phase 2: extension over an optional suffix
unit keyword. -/
def typedLitSpec2 : GSpec :=
  { cls := .TypedLiteral
    mtc := fun tk => tk.kindOf == some Kind.TypedLiteral
    validPrev := fun _ => true
    validNext := fun tk? => match tk? with
      | some tk => typedLitExtend tk
      | none => false
    post := fun l _ tix n => (some tix, n, l)
    extend := true
    recurseG := true }

/-- `group_typed_literal`: initial wrap phase then extension phase. -/
def group_typed_literal (t : Tok) : Except GErr Tok := do
  let t1 ← _group typedLitSpec1 t
  _group typedLitSpec2 t1

/-- Operand test of `group_operator` (exact type tuple plus the listed
group kinds and the `CURRENT_*` keywords). -/
def operatorValid (tk : Tok) : Bool :=
  isKindIn tk [.SquareBrackets, .Parenthesis, .Function, .Identifier, .Operation,
    .TypedLiteral] ||
    ttEq tk [.Num, .NumInteger, .NumFloat, .Str, .StrSingle, .StrSymbol, .Name,
      .NamePlaceholder] ||
    tk.mtch .Keyword (some ["CURRENT_DATE", "CURRENT_TIME", "CURRENT_TIMESTAMP"])

/-- `group_operator`: its `post` normalizes the matched token's type to
`Operator` and extends the span over a directly preceding `-`/`+`
sign. -/
def group_operator (t : Tok) : Except GErr Tok :=
  _group
    { cls := .Operation
      mtc := fun tk => ttEq tk [.Operator, .Wildcard]
      validPrev := operatorValid
      validNext := fun tk? => match tk? with
        | some tk => operatorValid tk
        | none => false
      post := fun l p tix n =>
        let l' := setTType l tix .Operator
        let fromI := match token_prev l' p true false with
          | some (si, st) =>
              if st.mtch .Operator (some ["-", "+"]) then si else p
          | none => p
        (some fromI, n, l')
      extend := false
      recurseG := true } t

/-- Operand test of `group_comparison`. -/
def comparisonValid (tk : Tok) : Bool :=
  isKindIn tk [.Parenthesis, .Function, .Identifier, .Operation, .TypedLiteral] ||
    ttEq tk [.Num, .NumInteger, .NumFloat, .Str, .StrSingle, .StrSymbol, .Name,
      .NamePlaceholder, .NameBuiltin] ||
    (tk.is_keyword && tk.normalized == "NULL")

/-- `group_comparison`. -/
def group_comparison (t : Tok) : Except GErr Tok :=
  _group
    { cls := .Comparison
      mtc := fun tk => tk.ttype == some TTy.OperatorComparison
      validPrev := comparisonValid
      validNext := fun tk? => match tk? with
        | some tk => comparisonValid tk
        | none => false
      post := fun l p _ n => (some p, n, l)
      extend := false
      recurseG := true } t

/-- `group_as`. -/
def group_as (t : Tok) : Except GErr Tok :=
  _group
    { cls := .Identifier
      mtc := fun tk => tk.is_keyword && tk.normalized == "AS"
      validPrev := fun tk =>
        tk.normalized == "NULL" || !tk.is_keyword ||
          (tk.kindOf == some Kind.Parenthesis && !tk.attrsOf.is_subQuery)
      validNext := fun tk? => match tk? with
        | some tk =>
            !(ttEq tk [.KeywordDML, .KeywordDDL, .KeywordCTE]) &&
              (!(tk.kindOf == some Kind.Parenthesis) || !tk.attrsOf.is_subQuery)
        | none => false
      post := fun l p _ n => (some p, n, l)
      extend := true
      recurseG := true } t

/-- `group_sub_query`, loop body: a `Parenthesis` flagged `is_subQuery`
next to an `Identifier` alias (optionally through `AS`) is wrapped into a
`SubQuery`, in either order. -/
def gsubq_step (cs : List Tok) (tidx : Nat) (token : Tok) :
    Except GErr (List Tok × Nat) :=
  let n0 := token_next cs tidx
  let n := match n0 with
    | some (nidx, nt) =>
        if nt.mtch .Keyword (some ["AS"]) then token_next cs nidx else n0
    | none => none
  match n with
  | some (nidx, nt) =>
      if token.kindOf == some Kind.Parenthesis &&
          nt.kindOf == some Kind.Identifier &&
          token.attrsOf.is_subQuery then
        match group_tokens .SubQuery tidx nidx true cs with
        | some l => .ok (l, tidx)
        | none => .error GErr.internal
      else if token.kindOf == some Kind.Identifier &&
          nt.kindOf == some Kind.Parenthesis &&
          nt.attrsOf.is_subQuery then
        match group_tokens .SubQuery tidx nidx true cs with
        | some l => .ok (l, tidx)
        | none => .error GErr.internal
      else .ok (cs, tidx)
  | none => .ok (cs, tidx)

/-- `group_sub_query` pass (decorated `@recurse()`). -/
def group_sub_query (t : Tok) : Except GErr Tok :=
  recNode []
    (onChildren fun cs =>
      passLoop (fun _ => true) gsubq_step
        (fun cs' cont =>
          token_next_by (isKindIn · [.Parenthesis, .Identifier]) cs' (some cont))
        (cs.length + 1) cs
        (token_next_by (isKindIn · [.Parenthesis, .Identifier]) cs none)) t

/-- Alias sources of `group_aliased`. -/
def aliasedHead (tk : Tok) : Bool :=
  isKindIn tk [.Function, .Case, .Identifier, .Operation, .Comparison,
    .WindowFunction] || ttSub tk .Num

/-- `group_aliased`, loop body: an alias source directly followed by an
`Identifier` extends into it. -/
def galiased_step (cs : List Tok) (tidx : Nat) (_tok : Tok) :
    Except GErr (List Tok × Nat) :=
  match token_next cs tidx with
  | some (nidx, nt) =>
      if nt.kindOf == some Kind.Identifier then
        match group_tokens .Identifier tidx nidx true cs with
        | some l => .ok (l, tidx)
        | none => .error GErr.internal
      else .ok (cs, tidx)
  | none => .ok (cs, tidx)

/-- `group_aliased` pass (decorated `@recurse()`). -/
def group_aliased (t : Tok) : Except GErr Tok :=
  recNode []
    (onChildren fun cs =>
      passLoop (fun _ => true) galiased_step
        (fun cs' cont => token_next_by aliasedHead cs' (some cont))
        (cs.length + 1) cs (token_next_by aliasedHead cs none)) t

/-- `group_assignment`: spans from the previous token to the next `;`
(falling back to the right operand when no truthy semicolon index is
found, per `snidx or nidx`). -/
def group_assignment (t : Tok) : Except GErr Tok :=
  let valid := fun (tk : Tok) => !(ttSub tk .Keyword)
  _group
    { cls := .Assignment
      mtc := fun tk => tk.mtch .Assignment (some [":="])
      validPrev := valid
      validNext := fun tk? => match tk? with
        | some tk => valid tk
        | none => false
      post := fun l p _ n =>
        let n' := match n with
          | some ni =>
              match token_next_by (fun tk => tk.mtch .Punctuation (some [";"])) l
                  (some ni) with
              | some (si, _) => if si != 0 then some si else n
              | none => n
          | none => n
        (some p, n', l)
      extend := true
      recurseG := true } t

/-- Condition operands of `group_conditions_list`. -/
def condCls : List Kind := [.Comparison, .Parenthesis, .ConditionsList, .Identifier]

/-- `group_conditions_list`: `AND`/`OR` joining conditions (with an
optional `NOT` or comment skipped on the right, a comment skipped on the
left); when the left operand is already a `ConditionsList` its
`conditions_count` is incremented, by 2 when the right operand is a
`Parenthesis`. -/
def group_conditions_list (t : Tok) : Except GErr Tok :=
  let valid := fun (tk : Tok) =>
    isKindIn tk (condCls ++ [.Comment]) || tk.mtch .Keyword (some ["NOT"])
  _group
    { cls := .ConditionsList
      mtc := fun tk => tk.mtch .Keyword (some ["AND", "OR"])
      validPrev := valid
      validNext := fun tk? => match tk? with
        | some tk => valid tk
        | none => false
      post := fun l p _ n =>
        match n with
        | none => (some p, none, l)
        | some ni =>
          let fromPair : Option Nat × Option Tok :=
            match l.get? p with
            | some pt =>
                if pt.kindOf == some Kind.Comment then
                  match token_prev_by (isKindIn · condCls) l p with
                  | some (i, tk) => (some i, some tk)
                  | none => (none, none)
                else (some p, some pt)
            | none => (some p, none)
          let toPair : Option Nat × Option Tok :=
            match l.get? ni with
            | some nt =>
                if nt.kindOf == some Kind.Comment ||
                    nt.mtch .Keyword (some ["NOT"]) then
                  match token_next_by (isKindIn · condCls) l (some ni) with
                  | some (i, tk) => (some i, some tk)
                  | none => (none, none)
                else (some ni, some nt)
            | none => (some ni, none)
          let l' := match fromPair with
            | (some fi, some pt) =>
                if pt.kindOf == some Kind.ConditionsList then
                  let inc := match toPair.2 with
                    | some nt => if nt.kindOf == some Kind.Parenthesis then 2 else 1
                    | none => 1
                  bumpCount l fi inc
                else l
            | _ => l
          (fromPair.1, toPair.1, l')
      extend := true
      recurseG := true } t

/-- `align_comments` pass (decorated `@recurse()`): the source's loop
only scans `Comment` groups and performs no mutation, so the body is the
identity walk. -/
def align_comments (t : Tok) : Except GErr Tok :=
  recNode [] (fun node => .ok node) t

/-- Role-keyword or comma matchers of `group_identifier_list`
(`m_role`). -/
def idlRole (tk : Tok) : Bool :=
  tk.mtch .Keyword (some ["null", "role"]) || tk.mtch .Punctuation (some [","])

/-- Valid list members of `group_identifier_list`. -/
def idlValid (tk : Tok) : Bool :=
  isKindIn tk [.Function, .WindowFunction, .Case, .Identifier, .Comparison,
    .IdentifierList, .Operation, .Comment, .SubQuery] ||
    idlRole tk ||
    ttEq tk [.Num, .NumInteger, .NumFloat, .Str, .StrSingle, .StrSymbol, .Name,
      .NamePlaceholder, .Keyword, .Wildcard]

/-- `group_identifier_list`. -/
def group_identifier_list (t : Tok) : Except GErr Tok :=
  _group
    { cls := .IdentifierList
      mtc := fun tk => tk.mtch .Punctuation (some [","])
      validPrev := idlValid
      validNext := fun tk? => match tk? with
        | some tk => idlValid tk
        | none => false
      post := fun l p _ n =>
        match n with
        | none => (some p, none, l)
        | some ni =>
          let fromI : Option Nat :=
            match l.get? p with
            | some pt =>
                if pt.kindOf == some Kind.Comment then
                  (token_prev_by idlValid l p).map (·.1)
                else some p
            | none => some p
          let toI : Option Nat :=
            match l.get? ni with
            | some nt =>
                if nt.kindOf == some Kind.Comment then
                  (token_next_by idlValid l (some ni)).map (·.1)
                else some ni
            | none => some ni
          (fromI, toI, l)
      extend := true
      recurseG := true } t

/-- Clause-span loop body shared by `group_clause_where` and
`group_clause_from`: span from the opener to the token before the next
close boundary, or to the last token of the parent when there is none. -/
def gclause_step (k : Kind) (mClose : Tok → Bool) (iClose : List Kind)
    (cs : List Tok) (tidx : Nat) (_tok : Tok) : Except GErr (List Tok × Nat) :=
  let endIdx :=
    match token_next_by (fun tk => mClose tk || isKindIn tk iClose) cs
        (some tidx) with
    | none => cs.length - 1
    | some (ei, _) => ei - 1
  match group_tokens k tidx endIdx false cs with
  | some l => .ok (l, tidx)
  | none => .error GErr.internal

/-- `ClauseWhere.M_CLOSE`, modelled from the spec: the keywords opening
the next clause. -/
def whereClose (tk : Tok) : Bool :=
  tk.mtch .Keyword
    (some ["ORDER BY", "GROUP BY", "HAVING", "LIMIT", "UNION", "UNION ALL",
      "EXCEPT", "RETURNING"])

/-- `group_clause_where` pass (decorated `@recurse(sql.ClauseWhere)`). -/
def group_clause_where (t : Tok) : Except GErr Tok :=
  let mo := fun (tk : Tok) => tk.mtch .Keyword (some ["WHERE"])
  recNode [.ClauseWhere]
    (onChildren fun cs =>
      passLoop (fun _ => true)
        (gclause_step .ClauseWhere whereClose
          [.ClauseGroupBy, .ClauseOrderBy, .ClausePartitionBy, .Values])
        (fun cs' cont => token_next_by mo cs' (some cont))
        (cs.length + 1) cs (token_next_by mo cs none)) t

/-- `ClauseFrom.M_CLOSE`, modelled from the spec: the keywords opening
the next clause. -/
def fromClose (tk : Tok) : Bool :=
  tk.mtch .Keyword
    (some ["WHERE", "ORDER BY", "GROUP BY", "HAVING", "LIMIT", "UNION",
      "UNION ALL", "EXCEPT", "VALUES", "RETURNING"])

/-- `group_clause_from` pass (decorated `@recurse(sql.ClauseFrom)`). -/
def group_clause_from (t : Tok) : Except GErr Tok :=
  let mo := fun (tk : Tok) => tk.mtch .Keyword (some ["FROM"])
  recNode [.ClauseFrom]
    (onChildren fun cs =>
      passLoop (fun _ => true)
        (gclause_step .ClauseFrom fromClose
          [.ClauseWhere, .ClauseGroupBy, .ClauseOrderBy, .Values])
        (fun cs' cont => token_next_by mo cs' (some cont))
        (cs.length + 1) cs (token_next_by mo cs none)) t

/-- Loop body shared by the `BY`-clause passes: span from the opener
keyword to the next `Identifier`/`IdentifierList`(/`Function`) sibling; a
missing end is the uncaught `token_index(None)` failure. -/
def gby_step (k : Kind) (ends : List Kind) (cs : List Tok) (tidx : Nat)
    (_tok : Tok) : Except GErr (List Tok × Nat) :=
  match token_next_by (isKindIn · ends) cs (some tidx) with
  | none => .error GErr.internal
  | some (ei, _) =>
      match group_tokens k tidx ei false cs with
      | some l => .ok (l, tidx)
      | none => .error GErr.internal

/-- `group_clause_partition_by` pass. -/
def group_clause_partition_by (t : Tok) : Except GErr Tok :=
  let mo := fun (tk : Tok) => tk.mtch .Keyword (some ["PARTITION BY"])
  recNode [.ClausePartitionBy]
    (onChildren fun cs =>
      passLoop (fun _ => true)
        (gby_step .ClausePartitionBy [.Identifier, .IdentifierList])
        (fun cs' cont => token_next_by mo cs' (some cont))
        (cs.length + 1) cs (token_next_by mo cs none)) t

/-- `group_clause_order_by` pass. -/
def group_clause_order_by (t : Tok) : Except GErr Tok :=
  let mo := fun (tk : Tok) => tk.mtch .Keyword (some ["ORDER BY"])
  recNode [.ClauseOrderBy]
    (onChildren fun cs =>
      passLoop (fun _ => true)
        (gby_step .ClauseOrderBy [.Identifier, .IdentifierList, .Function])
        (fun cs' cont => token_next_by mo cs' (some cont))
        (cs.length + 1) cs (token_next_by mo cs none)) t

/-- `group_clause_group_by` pass. -/
def group_clause_group_by (t : Tok) : Except GErr Tok :=
  let mo := fun (tk : Tok) => tk.mtch .Keyword (some ["GROUP BY"])
  recNode [.ClauseGroupBy]
    (onChildren fun cs =>
      passLoop (fun _ => true)
        (gby_step .ClauseGroupBy [.Identifier, .IdentifierList])
        (fun cs' cont => token_next_by mo cs' (some cont))
        (cs.length + 1) cs (token_next_by mo cs none)) t

/-- `group_values`, scanning loop: starting at the `VALUES` keyword, walk
`token_next` to the end of the list recording the index of the last
`Parenthesis` seen. -/
def gvalues_scan (cs : List Tok) : Nat → Option (Nat × Tok) → Option Nat →
    Option Nat
  | 0, _, acc => acc
  | _, none, acc => acc
  | fuel + 1, some (i, tk), acc =>
      let acc' := if tk.kindOf == some Kind.Parenthesis then some i else acc
      gvalues_scan cs fuel (token_next cs i) acc'

/-- `group_values`, body: wrap from the first `VALUES` keyword through
the last `Parenthesis` sibling after it; no `VALUES`, or no following
parenthesis, leaves the list unchanged. -/
def group_values_body (cs : List Tok) : Except GErr (List Tok) :=
  match token_next_by (fun tk => tk.mtch .Keyword (some ["VALUES"])) cs none with
  | none => .ok cs
  | some (si, stok) =>
      match gvalues_scan cs (cs.length + 1) (some (si, stok)) none with
      | none => .ok cs
      | some ei =>
          match group_tokens .Values si ei true cs with
          | some l => .ok l
          | none => throw GErr.internal

/-- `group_values` pass (top level only in the source). -/
def group_values (t : Tok) : Except GErr Tok := onChildren group_values_body t

/-- `group_select_projection`, loop body: `SELECT` through the next
`IdentifierList`/`Identifier`/wildcard; a missing target is the fatal
`InvalidSyntax` error. -/
def gselproj_step (cs : List Tok) (tidx : Nat) (_tok : Tok) :
    Except GErr (List Tok × Nat) :=
  match token_next_by (fun tk =>
      isKindIn tk [.IdentifierList, .Identifier] || ttSub tk .Wildcard) cs
      (some tidx) with
  | none => .error (GErr.invalidSyntax "SELECT")
  | some (ei, _) =>
      match group_tokens .SelectProjection tidx ei false cs with
      | some l => .ok (l, tidx)
      | none => .error GErr.internal

/-- `group_select_projection` pass (decorated
`@recurse(sql.SelectProjection)`). -/
def group_select_projection (t : Tok) : Except GErr Tok :=
  recNode [.SelectProjection]
    (onChildren fun cs =>
      passLoop (fun _ => true) gselproj_step
        (fun cs' cont =>
          token_next_by (fun tk => tk.mtch .KeywordDML (some ["SELECT"])) cs'
            (some cont))
        (cs.length + 1) cs
        (token_next_by (fun tk => tk.mtch .KeywordDML (some ["SELECT"])) cs none)) t

/-- `group_clause_with`, loop body. -/
def gwith_step (cs : List Tok) (tidx : Nat) (_tok : Tok) :
    Except GErr (List Tok × Nat) :=
  match token_next_by
      (isKindIn · [.IdentifierList, .Identifier, .SubQuery]) cs (some tidx) with
  | none => .error (GErr.invalidSyntax "WITH")
  | some (ei, _) =>
      match group_tokens .ClauseWith tidx ei false cs with
      | some l => .ok (l, tidx)
      | none => .error GErr.internal

/-- `group_clause_with` pass (decorated `@recurse(sql.ClauseWith)`;
`ClauseWith.M_OPEN` modelled from the spec as the CTE `WITH` keyword). -/
def group_clause_with (t : Tok) : Except GErr Tok :=
  recNode [.ClauseWith]
    (onChildren fun cs =>
      passLoop (fun _ => true) gwith_step
        (fun cs' cont =>
          token_next_by (fun tk => tk.mtch .KeywordCTE (some ["WITH"])) cs'
            (some cont))
        (cs.length + 1) cs
        (token_next_by (fun tk => tk.mtch .KeywordCTE (some ["WITH"])) cs none)) t

/-- `group_clause_insert`, loop body. -/
def ginsert_step (cs : List Tok) (tidx : Nat) (_tok : Tok) :
    Except GErr (List Tok × Nat) :=
  match token_next_by (isKindIn · [.Parenthesis]) cs (some tidx) with
  | none => .error (GErr.invalidSyntax "INSERT")
  | some (ei, _) =>
      match group_tokens .ClauseInsert tidx ei false cs with
      | some l => .ok (l, tidx)
      | none => .error GErr.internal

/-- `group_clause_insert` pass (`ClauseInsert.M_OPEN` modelled from the
spec as the `INSERT`/`INSERT INTO` DML keyword). -/
def group_clause_insert (t : Tok) : Except GErr Tok :=
  recNode [.ClauseInsert]
    (onChildren fun cs =>
      passLoop (fun _ => true) ginsert_step
        (fun cs' cont =>
          token_next_by
            (fun tk => tk.mtch .KeywordDML (some ["INSERT", "INSERT INTO"])) cs'
            (some cont))
        (cs.length + 1) cs
        (token_next_by
          (fun tk => tk.mtch .KeywordDML (some ["INSERT", "INSERT INTO"])) cs
          none)) t

/-- `group_statement_select`, loop body: a `SelectProjection` through
the token before the next `;` (or through the end of the parent,
adjusted by the trailing-parenthesis offset), absorbing a directly
preceding `ClauseWith`. -/
def gstmtsel_step (off : Nat) (cs : List Tok) (tidx : Nat) (_tok : Tok) :
    Except GErr (List Tok × Nat) :=
  let sidx := match token_prev cs tidx with
    | some (pidx, pt) => if pt.kindOf == some Kind.ClauseWith then pidx else tidx
    | none => tidx
  let endIdx :=
    match token_next_by (fun tk => tk.mtch .Punctuation (some [";"])) cs
        (some tidx) with
    | none => cs.length - 1 - off
    | some (ei, _) => ei - 1
  match group_tokens .StatementSelect sidx endIdx false cs with
  | some l => .ok (l, tidx)
  | none => .error GErr.internal

/-- `group_statement_select` pass: the end offset is 1 when the node is a
`Parenthesis` or its last token is a `)` (`StatementSelect.M_CLOSE`
modelled from the spec as the `;` punctuation,
`I_OPEN` as `SelectProjection`). -/
def group_statement_select (t : Tok) : Except GErr Tok :=
  recNode [.StatementSelect]
    (fun node =>
      match node with
      | .tok tt v => .ok (.tok tt v)
      | .grp k a cs =>
          let off : Nat :=
            if k = Kind.Parenthesis ||
                (match cs.getLast? with
                 | some lt => lt.mtch .Punctuation (some [")"])
                 | none => false) then 1 else 0
          do
            let cs' ← passLoop (fun _ => true) (gstmtsel_step off)
              (fun cs2 cont => token_next_by (isKindIn · [.SelectProjection]) cs2
                (some cont))
              (cs.length + 1) cs
              (token_next_by (isKindIn · [.SelectProjection]) cs none)
            .ok (.grp k a cs')) t

/-- `group_statement_union`. -/
def group_statement_union (t : Tok) : Except GErr Tok :=
  let sqlcls : List Kind := [.StatementSelect, .StatementUnion, .Comment]
  _group
    { cls := .StatementUnion
      mtc := fun tk => tk.mtchRx .Keyword ["UNION", "UNION ALL"]
      validPrev := fun tk => isKindIn tk sqlcls
      validNext := fun tk? => match tk? with
        | some tk => isKindIn tk sqlcls
        | none => false
      post := fun l p _ n =>
        match n with
        | none => (some p, none, l)
        | some ni =>
          let fromI : Option Nat :=
            match l.get? p with
            | some pt =>
                if pt.kindOf == some Kind.Comment then
                  (token_prev_by (isKindIn · sqlcls) l p).map (·.1)
                else some p
            | none => some p
          let toI : Option Nat :=
            match l.get? ni with
            | some nt =>
                if nt.kindOf == some Kind.Comment then
                  (token_next_by (isKindIn · sqlcls) l (some ni)).map (·.1)
                else some ni
            | none => some ni
          (fromI, toI, l)
      extend := true
      recurseG := true } t

/-- `group_statement_insert`, loop body: the missing-`;` case is the
source's uncaught `None - 1` failure. -/
def gstmtins_step (cs : List Tok) (tidx : Nat) (_tok : Tok) :
    Except GErr (List Tok × Nat) :=
  let sidx := match token_prev cs tidx with
    | some (pidx, pt) => if pt.kindOf == some Kind.ClauseWith then pidx else tidx
    | none => tidx
  match token_next_by (fun tk => tk.mtch .Punctuation (some [";"])) cs
      (some tidx) with
  | none => .error GErr.internal
  | some (ei, _) =>
      match group_tokens .StatementInsert sidx (ei - 1) false cs with
      | some l => .ok (l, tidx)
      | none => .error GErr.internal

/-- `group_statement_insert` pass (`I_OPEN` modelled from the spec as
`ClauseInsert`, `M_CLOSE` as the `;` punctuation). -/
def group_statement_insert (t : Tok) : Except GErr Tok :=
  recNode [.StatementInsert]
    (onChildren fun cs =>
      passLoop (fun _ => true) gstmtins_step
        (fun cs' cont => token_next_by (isKindIn · [.ClauseInsert]) cs' (some cont))
        (cs.length + 1) cs
        (token_next_by (isKindIn · [.ClauseInsert]) cs none)) t

/-- `group`: the fixed pipeline of grouping passes, in source order. -/
def group (stmt : Tok) : Except GErr Tok := do
  let s ← group_comments stmt
  let s ← group_brackets s
  let s ← group_parenthesis s
  let s ← group_case s
  let s ← group_if s
  let s ← group_for s
  let s ← group_begin s
  let s ← group_functions s
  let s ← group_window_function s
  let s ← group_period s
  let s ← group_arrays s
  let s ← group_identifier s
  let s ← group_signed_identifier s
  let s ← group_order s
  let s ← group_typecasts s
  let s ← group_tzcasts s
  let s ← group_typed_literal s
  let s ← group_operator s
  let s ← group_comparison s
  let s ← group_as s
  let s ← group_sub_query s
  let s ← group_aliased s
  let s ← group_assignment s
  let s ← group_conditions_list s
  let s ← align_comments s
  let s ← group_identifier_list s
  let s ← group_clause_partition_by s
  let s ← group_clause_order_by s
  let s ← group_clause_group_by s
  let s ← group_values s
  let s ← group_clause_where s
  let s ← group_clause_from s
  let s ← group_select_projection s
  let s ← group_clause_with s
  let s ← group_clause_insert s
  let s ← group_statement_select s
  let s ← group_statement_union s
  group_statement_insert s

/-- Wrap a flat token stream as the root `Statement` group. -/
def Statement (ts : List Tok) : Tok := .grp .Statement {} ts

instance {α : Type} [DecidableEq α] : DecidableEq (Except GErr α) := fun a b =>
  match a, b with
  | .ok x, .ok y =>
      if h : x = y then isTrue (by rw [h])
      else isFalse (by intro he; cases he; exact h rfl)
  | .error x, .error y =>
      if h : x = y then isTrue (by rw [h])
      else isFalse (by intro he; cases he; exact h rfl)
  | .ok _, .error _ => isFalse (by intro he; cases he)
  | .error _, .ok _ => isFalse (by intro he; cases he)

/-!  The reindent walker (`SSSplitterFilter` and its `ReindentFilter`
subclass). -/

/-- The walker's scalar state: newline string `n`, indent character
`char` (a one-character string), and the `offset`/`indent`/`width`
counters.  `offset` is an integer: the walker temporarily lowers it below
zero in the comma-first paths. -/
structure WState where
  n : String := "\n"
  char : String := " "
  offset : Int := 0
  indent : Int := 0
  width : Int := 0
  deriving Repr

/-- `leading_ws` property: `offset + indent * width`. -/
def WState.leading_ws (s : WState) : Int := s.offset + s.indent * s.width

/-- Python string repetition (`char * k`). -/
def repStr (c : String) (k : Nat) : String := sjoin (List.replicate k c)

/-- `SSSplitterFilter.nl(offset)`: a token of lexical type `Whitespace`
whose value is the newline string followed by the indent character
repeated `max(0, leading_ws + offset)` times. -/
def nl (s : WState) (off : Int := 0) : Tok :=
  .tok .Whitespace (s.n ++ repStr s.char (max 0 (s.leading_ws + off)).toNat)

/-- The scoped `offset(self, n)` helper: state with `offset` shifted. -/
def withOffset (s : WState) (d : Int) : WState := { s with offset := s.offset + d }

/-- `_get_token_offset`, with the flatten-up-to computation abstracted by
the oracle `absCol` giving the column (length of the last line of the
statement text before the token): the source subtracts the length of
`char * leading_ws`, which is `max 0 leading_ws` characters. -/
def _get_token_offset (absCol : Tok → Int) (s : WState) (t : Tok) : Int :=
  absCol t - max 0 s.leading_ws

/-- The split-word patterns of `_split_kwds` (`split_words`); the two
regexes are approximated by substring search for their keyword cores,
exact for the plain keyword tokens they are matched against. -/
def split_words : List String :=
  ["JOIN", "GROUP BY", "ORDER BY", "AND", "INTO", "OR", "HAVING", "LIMIT",
    "UNION", "VALUES", "SET", "BETWEEN", "EXCEPT"]

/-- A keyword token matching the split-word set (regex matching against
the normalized value). -/
def isSplitWord (tk : Tok) : Bool := tk.mtchRx .Keyword split_words

/-- `_next_token`: find the next split keyword after `idx`; after a
`BETWEEN`, the next split keyword is fetched and, when it is an `AND`,
skipped by searching again after it. -/
def _next_token (fuel : Nat) (l : List Tok) (idx : Option Nat) :
    Option (Nat × Tok) :=
  match fuel with
  | 0 => none
  | fuel + 1 =>
    match token_next_by isSplitWord l idx with
    | none => none
    | some (tidx, token) =>
        if token.normalized == "BETWEEN" then
          match _next_token fuel l (some tidx) with
          | some (t2, tok2) =>
              if tok2.normalized == "AND" then _next_token fuel l (some t2)
              else some (t2, tok2)
          | none => none
        else some (tidx, token)

/-- `_split_kwds`, loop: insert a newline (indented by the subclass's
keyword offset) before each keyword `_next_token` finds, resuming the
search just after the keyword's shifted position. -/
def _split_kwds_go (kwdOff : Tok → Int) (s : WState) :
    Nat → List Tok → Option Nat → List Tok
  | 0, l, _ => l
  | fuel + 1, l, idx =>
    match _next_token (l.length + 1) l idx with
    | none => l
    | some (tidx, token) =>
        _split_kwds_go kwdOff s fuel (insertAt l tidx (nl s (kwdOff token)))
          (some (tidx + 1))

/-- `_split_kwds` entry point. -/
def _split_kwds (kwdOff : Tok → Int) (s : WState) (l : List Tok) : List Tok :=
  _split_kwds_go kwdOff s (l.length + 1) l none

/-- `ReindentFilter._get_kwd_offset` is constantly zero. -/
def reindentKwdOff : Tok → Int := fun _ => 0

/-- Recursion into sublists (`for sgroup in tlist.get_sublists():
self._process(sgroup)`), with the walker's dispatch abstracted by
`recP`. -/
def recSublists (recP : WState → Tok → Tok) (s : WState) (cs : List Tok) :
    List Tok :=
  cs.map fun c => if c.is_group then recP s c else c

/-- `_process_conditionslist` of the reindent walker: when
`conditions_count > 2`, split keywords under an offset scope positioned
at the column of the list's first token, then recurse into sublists;
otherwise only recurse. -/
def _process_conditionslist (absCol : Tok → Int) (recP : WState → Tok → Tok)
    (s : WState) : Tok → Tok
  | .tok tt v => .tok tt v
  | .grp k a cs =>
      match cs.head? with
      | none => .grp k a cs
      | some first =>
          let cs1 :=
            if 2 < a.conditions_count then
              _split_kwds reindentKwdOff
                (withOffset s (_get_token_offset absCol s first)) cs
            else cs
          .grp k a (recSublists recP s cs1)

/-!  `SpacesAroundOperatorsFilter` (`filters/others.py`). -/

/-- An `Operator` or `Comparison` typed token (`(T.Operator,
T.Comparison)`, exact type membership; `T.Comparison` is
`Operator.Comparison`). -/
def saofOp (tk : Tok) : Bool := ttEq tk [.Operator, .OperatorComparison]

/-- `insert_after` with its default `skip_ws=True`: the token is placed
before the next non-whitespace non-comment sibling, or appended. -/
def insert_after_skipws (l : List Tok) (i : Nat) (x : Tok) : List Tok :=
  match token_next l i with
  | some (ni, _) => insertAt l ni x
  | none => l ++ [x]

/-- `SpacesAroundOperatorsFilter._process`, loop over one token list.
`flag` is `token.within(sql.SignedIdentifier)` for the tokens of this
list (the list or one of its ancestors is a `SignedIdentifier`).  A
space is inserted after the operator only when the immediate next token
is not `Whitespace`-typed and the flag is off; a space is inserted
before it whenever the immediate previous token is not
`Whitespace`-typed — the flag is not consulted there. -/
def saofGo (flag : Bool) : Nat → List Tok → Nat → List Tok
  | 0, l, _ => l
  | fuel + 1, l, start =>
    match scanFrom saofOp l start with
    | none => l
    | some i =>
        let l1 :=
          match l.get? (i + 1) with
          | some nt =>
              if nt.ttype != some TTy.Whitespace && !flag then
                insert_after_skipws l i (.tok .Whitespace " ")
              else l
          | none => l
        let p : Option (Nat × Tok) :=
          if i == 0 then none
          else match l1.get? (i - 1) with
               | some pt => some (i - 1, pt)
               | none => none
        let (l2, i2) :=
          match p with
          | some (_, pt) =>
              if pt.ttype != some TTy.Whitespace then
                (insertAt l1 i (.tok .Whitespace " "), i + 1)
              else (l1, i)
          | none => (l1, i)
        saofGo flag fuel l2 (i2 + 1)

/-- `SpacesAroundOperatorsFilter._process` on one list. -/
def saofList (flag : Bool) (l : List Tok) : List Tok :=
  saofGo flag (l.length + 1) l 0

mutual

/-- `SpacesAroundOperatorsFilter.process`: sublists first, then the
list itself; the within-`SignedIdentifier` flag is extended when the
node's own kind is `SignedIdentifier`. -/
def saofTok (anc : Bool) : Nat → Tok → Tok
  | 0, t => t
  | _ + 1, .tok tt v => .tok tt v
  | fuel + 1, .grp k a cs =>
      let fl := anc || decide (k = Kind.SignedIdentifier)
      let cs1 := saofKids fl fuel cs
      .grp k a (saofList fl cs1)

/-- Children traversal of `SpacesAroundOperatorsFilter.process`. -/
def saofKids (fl : Bool) : Nat → List Tok → List Tok
  | 0, l => l
  | _ + 1, [] => []
  | fuel + 1, c :: cs =>
      (if c.is_group then saofTok fl fuel c else c) :: saofKids fl fuel cs

end

/-- A space inserted before each operator-typed element whose previous
element exists and is not `Whitespace`-typed, and nothing else — the
reference transformation of the claim, written from the spec's words. -/
def saofSpecGo : Option Tok → List Tok → List Tok
  | _, [] => []
  | prev, x :: xs =>
      if saofOp x &&
          (match prev with
           | some p => p.ttype != some TTy.Whitespace
           | none => false) then
        Tok.tok .Whitespace " " :: x :: saofSpecGo (some x) xs
      else x :: saofSpecGo (some x) xs

/-!  Concrete scenarios referenced by the claim theorems. -/

/-- An already-grouped statement: a sub-query-flagged parenthesis
followed by an alias identifier. -/
def c3t0 : Tok := .grp .Statement {} [
  .grp .Parenthesis {is_subQuery := true} [.tok .Punctuation "(", .tok .Punctuation ")"],
  .grp .Identifier {} [.tok .Name "a"]]

/-- The tree after one run of `group` on `c3t0`: the pair is wrapped
into a `SubQuery`. -/
def c3t1 : Tok := .grp .Statement {} [.grp .SubQuery {} [
  .grp .Parenthesis {is_subQuery := true} [.tok .Punctuation "(", .tok .Punctuation ")"],
  .grp .Identifier {} [.tok .Name "a"]]]

/-- The tree after a second run of `group`: the pair inside the
`SubQuery` is wrapped again. -/
def c3t2 : Tok := .grp .Statement {} [.grp .SubQuery {} [.grp .SubQuery {} [
  .grp .Parenthesis {is_subQuery := true} [.tok .Punctuation "(", .tok .Punctuation ")"],
  .grp .Identifier {} [.tok .Name "a"]]]]

/-- The token stream of scenario D, `a between 1 and 10 and b > 0`. -/
def c5D : List Tok := [.tok .Name "a", .tok .Whitespace " ",
  .tok .Keyword "between", .tok .Whitespace " ", .tok .NumInteger "1",
  .tok .Whitespace " ", .tok .Keyword "and", .tok .Whitespace " ",
  .tok .NumInteger "10", .tok .Whitespace " ", .tok .Keyword "and",
  .tok .Whitespace " ", .tok .Name "b", .tok .Whitespace " ",
  .tok .OperatorComparison ">", .tok .Whitespace " ", .tok .NumInteger "0"]

/-- A `CREATE TABLE t (a INTEGER(1))` statement after parenthesis
grouping: the statement contains both `CREATE` and `TABLE`, the nested
column list does not. -/
def c6in : Tok := .grp .Statement {} [.tok .KeywordDDL "CREATE",
  .tok .Whitespace " ", .tok .Keyword "TABLE", .tok .Whitespace " ",
  .tok .Name "t", .tok .Whitespace " ",
  .grp .Parenthesis {} [.tok .Punctuation "(", .tok .Name "a",
    .tok .Whitespace " ", .tok .NameBuiltin "INTEGER",
    .grp .Parenthesis {} [.tok .Punctuation "(", .tok .NumInteger "1",
      .tok .Punctuation ")"],
    .tok .Punctuation ")"]]

/-- `c6in` with the column type `INTEGER(1)` wrapped into a `Function`
group by `group_functions`. -/
def c6out : Tok := .grp .Statement {} [.tok .KeywordDDL "CREATE",
  .tok .Whitespace " ", .tok .Keyword "TABLE", .tok .Whitespace " ",
  .tok .Name "t", .tok .Whitespace " ",
  .grp .Parenthesis {} [.tok .Punctuation "(", .tok .Name "a",
    .tok .Whitespace " ",
    .grp .Function {} [.tok .NameBuiltin "INTEGER",
      .grp .Parenthesis {} [.tok .Punctuation "(", .tok .NumInteger "1",
        .tok .Punctuation ")"]],
    .tok .Punctuation ")"]]

/-- A single token list holding `CREATE`, `TABLE` and a builtin-name /
parenthesis pair: `group_functions_body` leaves it alone. -/
def c6sup : List Tok := [.tok .KeywordDDL "CREATE", .tok .Keyword "TABLE",
  .tok .NameBuiltin "INTEGER",
  .grp .Parenthesis {} [.tok .Punctuation "(", .tok .Punctuation ")"]]

/-- A `Parenthesis`-kinded node (`isinstance(tk, sql.Parenthesis)`). -/
def isParenTok (t : Tok) : Bool := t.kindOf == some Kind.Parenthesis

/-- No `Parenthesis` sibling at any index after `si` — written from the
claim's words. -/
def noParenAfter (cs : List Tok) (si : Nat) : Bool :=
  (cs.drop (si + 1)).all fun t => !isParenTok t

/-- `ei` is the last index after `si` holding a `Parenthesis` sibling —
written from the claim's words. -/
def lastParenAfter (cs : List Tok) (si ei : Nat) : Bool :=
  decide (si < ei) &&
    (match cs.get? ei with
     | some t => isParenTok t
     | none => false) &&
    ((cs.drop (ei + 1)).all fun t => !isParenTok t)

/-- The children of `VALUES ();, ()` with a trailing space, after
parenthesis grouping. -/
def c10vin : List Tok := [.tok .Keyword "VALUES", .tok .Whitespace " ",
  .grp .Parenthesis {} [.tok .Punctuation "(", .tok .Punctuation ")"],
  .tok .Punctuation ",", .tok .Whitespace " ",
  .grp .Parenthesis {} [.tok .Punctuation "(", .tok .Punctuation ")"],
  .tok .Whitespace " "]

/-!  Content-preservation infrastructure: every grouping step preserves
the in-order flatten of leaf values. -/

theorem flatL_take_drop (l : List Tok) (i : Nat) :
    flatL (l.take i) ++ flatL (l.drop i) = flatL l := by
  rw [← flatL_append, List.take_append_drop]

theorem slice_decomp (l : List Tok) (f t : Nat) (h : f ≤ t + 1) :
    l.take f ++ ((l.drop f).take (t + 1 - f) ++ l.drop (t + 1)) = l := by
  have h1 : (l.drop f).drop (t + 1 - f) = l.drop (t + 1) := by
    rw [List.drop_drop]
    congr 1
    omega
  rw [← h1, List.take_append_drop, List.take_append_drop]

theorem flatL_wrap (l : List Tok) (f t : Nat) (h : f ≤ t + 1) (g : Tok)
    (hg : g.flatT = flatL ((l.drop f).take (t + 1 - f))) :
    flatL (l.take f ++ g :: l.drop (t + 1)) = flatL l := by
  have hslice := slice_decomp l f t h
  conv_rhs => rw [← hslice]
  rw [flatL_append, flatL_append]
  show flatL (l.take f) ++ (g.flatT ++ flatL (l.drop (t + 1))) = _
  rw [hg, flatL_append]

theorem group_tokens_flat {k f t e l m} (h : group_tokens k f t e l = some m) :
    flatL m = flatL l := by
  unfold group_tokens at h
  split at h
  case isTrue hft =>
    have hf1 : f ≤ t + 1 := Nat.le_succ_of_le hft.1
    split at h
    case h_1 k' a cs rest hm =>
      split at h
      case isTrue hk =>
        cases h
        refine flatL_wrap l f t hf1 _ ?_
        rw [hm]
        show flatL (cs ++ rest) = flatL (Tok.grp k' a cs :: rest)
        rw [flatL_append]
        rfl
      case isFalse hk =>
        cases h
        exact flatL_wrap l f t hf1 _ rfl
    case h_2 =>
      cases h
      exact flatL_wrap l f t hf1 _ rfl
  case isFalse => cases h

theorem flatL_set {l : List Tok} {i : Nat} {x y : Tok}
    (hget : l.get? i = some y) (hx : x.flatT = y.flatT) :
    flatL (l.set i x) = flatL l := by
  induction l generalizing i with
  | nil => cases hget
  | cons a as ih =>
      cases i with
      | zero =>
          cases hget
          simp [List.set, flatL, hx]
      | succ n =>
          simp only [List.get?] at hget
          simp [List.set, flatL, ih hget]

theorem setTType_flat (l : List Tok) (i : Nat) (tt : TTy) :
    flatL (setTType l i tt) = flatL l := by
  unfold setTType
  split
  case h_1 y v heq => exact flatL_set heq rfl
  case h_2 => rfl

theorem bumpCount_flat (l : List Tok) (i : Nat) (inc : Nat) :
    flatL (bumpCount l i inc) = flatL l := by
  unfold bumpCount
  split
  case h_1 y k a cs heq => exact flatL_set heq rfl
  case h_2 => rfl

@[simp] theorem flatL_nil : flatL ([] : List Tok) = [] := rfl

@[simp] theorem flatL_cons (t : Tok) (ts : List Tok) :
    flatL (t :: ts) = t.flatT ++ flatL ts := rfl

@[simp] theorem flatT_grp (k : Kind) (a : Attrs) (cs : List Tok) :
    (Tok.grp k a cs).flatT = flatL cs := rfl

@[simp] theorem flatT_tok (tt : TTy) (v : String) :
    (Tok.tok tt v).flatT = [v] := rfl

theorem flatL_take_drop' (l : List Tok) (i : Nat) (X : List String) :
    flatL (l.take i) ++ (flatL (l.drop i) ++ X) = flatL l ++ X := by
  rw [← List.append_assoc, flatL_take_drop]

theorem gm_flat (cls : Kind) (mo mc : Tok → Bool) : ∀ fuel : Nat,
    (∀ l out opens,
      flatL (gmGo cls mo mc fuel l out opens) = flatL out ++ flatL l) ∧
    (∀ t, (gmTok cls mo mc fuel t).flatT = t.flatT) := by
  intro fuel
  induction fuel with
  | zero =>
      constructor
      · intro l out opens
        simp [gmGo, flatL_append]
      · intro t
        simp [gmTok]
  | succ n ih =>
      constructor
      · intro l out opens
        cases l with
        | nil => simp [gmGo]
        | cons t rest =>
            simp only [gmGo]
            split
            · simp [ih.1, flatL_append, List.append_assoc]
            · split
              · simp [ih.1, ih.2, flatL_append, List.append_assoc]
              · split
                · simp [ih.1, flatL_append, List.append_assoc]
                · split
                  · split
                    · simp [ih.1, flatL_append, List.append_assoc]
                    · simp [ih.1, flatL_append, List.append_assoc,
                        flatL_take_drop']
                  · simp [ih.1, flatL_append, List.append_assoc]
      · intro t
        cases t with
        | tok tt v => simp [gmTok]
        | grp k a cs => simp [gmTok, ih.1]

theorem _group_matching_flat (cls : Kind) (mo mc : Tok → Bool) (t : Tok) :
    (_group_matching cls mo mc t).flatT = t.flatT :=
  (gm_flat cls mo mc (t.size + 1)).2 t

theorem gparen_flat : ∀ fuel : Nat,
    (∀ l out opens r, gparenGo fuel l out opens = .ok r →
      flatL r = flatL out ++ flatL l) ∧
    (∀ t u, gparenTok fuel t = .ok u → u.flatT = t.flatT) := by
  intro fuel
  induction fuel with
  | zero =>
      constructor
      · intro l out opens r h
        simp only [gparenGo] at h
        cases h
        simp [flatL_append]
      · intro t u h
        simp only [gparenTok] at h
        cases h
        rfl
  | succ n ih =>
      constructor
      · intro l out opens r h
        cases l with
        | nil =>
            simp only [gparenGo] at h
            cases h
            simp
        | cons t rest =>
            simp only [gparenGo] at h
            split at h
            · have := ih.1 _ _ _ _ h
              simp [this, flatL_append, List.append_assoc]
            · split at h
              · cases hq : gparenTok n t with
                | error e => simp [hq, Bind.bind, Except.bind] at h
                | ok t' =>
                    simp only [hq, Bind.bind, Except.bind] at h
                    have := ih.1 _ _ _ _ h
                    have h2 := ih.2 _ _ hq
                    simp [this, h2, flatL_append, List.append_assoc]
              · split at h
                · have := ih.1 _ _ _ _ h
                  simp [this, flatL_append, List.append_assoc]
                · split at h
                  · split at h
                    · cases h
                    · have := ih.1 _ _ _ _ h
                      simp [this, flatL_append, List.append_assoc,
                        flatL_take_drop']
                  · have := ih.1 _ _ _ _ h
                    simp [this, flatL_append, List.append_assoc]
      · intro t u h
        cases t with
        | tok tt v =>
            simp only [gparenTok] at h
            cases h
            rfl
        | grp k a cs =>
            simp only [gparenTok] at h
            cases hq : gparenGo n cs [] [] with
            | error e => simp [hq, Bind.bind, Except.bind] at h
            | ok cs' =>
                simp only [hq, Bind.bind, Except.bind] at h
                cases h
                have := ih.1 _ _ _ _ hq
                simp [this]

/-- Flatten preservation of a node pass. -/
def PresT (f : Tok → Except GErr Tok) : Prop :=
  ∀ t u, f t = .ok u → u.flatT = t.flatT

theorem group_parenthesis_pres : PresT group_parenthesis := by
  intro t u h
  exact (gparen_flat (t.size + 1)).2 t u h

theorem recNode_flat {excl : List Kind} {f : Tok → Except GErr Tok}
    (hf : PresT f) : ∀ fuel : Nat,
    (∀ t u, recNodeGo excl f fuel t = .ok u → u.flatT = t.flatT) ∧
    (∀ l m, recChildren excl f fuel l = .ok m → flatL m = flatL l) := by
  intro fuel
  induction fuel with
  | zero =>
      constructor
      · intro t u h
        simp only [recNodeGo] at h
        cases h
        rfl
      · intro l m h
        simp only [recChildren] at h
        cases h
        rfl
  | succ n ih =>
      constructor
      · intro t u h
        cases t with
        | tok tt v =>
            simp only [recNodeGo] at h
            cases h
            rfl
        | grp k a cs =>
            simp only [recNodeGo] at h
            cases hq : recChildren excl f n cs with
            | error e => simp [hq, Bind.bind, Except.bind] at h
            | ok cs' =>
                simp only [hq, Bind.bind, Except.bind] at h
                have h1 := ih.2 _ _ hq
                have h2 := hf _ _ h
                simp only [h2, flatT_grp, h1]
      · intro l m h
        cases l with
        | nil =>
            simp only [recChildren] at h
            cases h
            rfl
        | cons c cs =>
            simp only [recChildren] at h
            split at h
            · cases hq : recNodeGo excl f n c with
              | error e => simp [hq, Bind.bind, Except.bind] at h
              | ok c' =>
                  simp only [hq, Bind.bind, Except.bind] at h
                  cases hq2 : recChildren excl f n cs with
                  | error e => simp [hq2, Bind.bind, Except.bind] at h
                  | ok cs' =>
                      simp only [hq2, Bind.bind, Except.bind] at h
                      cases h
                      simp [ih.1 _ _ hq, ih.2 _ _ hq2]
            · simp only [pure, Except.pure, Bind.bind, Except.bind] at h
              cases hq2 : recChildren excl f n cs with
              | error e => simp [hq2] at h
              | ok cs' =>
                  simp only [hq2] at h
                  cases h
                  simp [ih.2 _ _ hq2]

theorem recNode_pres {excl : List Kind} {f : Tok → Except GErr Tok}
    (hf : PresT f) : PresT (recNode excl f) := by
  intro t u h
  exact (recNode_flat hf (t.size + 1)).1 t u h

/-- Flatten preservation of a `post` callback's list component. -/
def PostFlat (post : List Tok → Nat → Nat → Option Nat →
    Option Nat × Option Nat × List Tok) : Prop :=
  ∀ l p t n, flatL (post l p t n).2.2 = flatL l

theorem ggo_flat : ∀ fuel : Nat,
    (∀ sp : GSpec, PostFlat sp.post → ∀ l c pp r,
      ggo sp fuel l c pp = .ok r → flatL r.1 = flatL l) ∧
    (∀ sp : GSpec, PostFlat sp.post → ∀ l i ti r,
      preRec sp fuel l i ti = .ok r → flatL r.1 = flatL l) ∧
    (∀ sp : GSpec, PostFlat sp.post → ∀ t u,
      ggoTok sp fuel t = .ok u → u.1.flatT = t.flatT) ∧
    (∀ sp : GSpec, PostFlat sp.post → ∀ l c pp t1 sA r,
      ggoStep sp fuel l c pp t1 sA = .ok r → flatL r.1 = flatL l) := by
  intro fuel
  induction fuel with
  | zero =>
      have hGo : ∀ sp : GSpec, PostFlat sp.post → ∀ l c pp r,
          ggo sp 0 l c pp = .ok r → flatL r.1 = flatL l := by
        intro sp _ l c pp r h
        simp only [ggo] at h
        cases h
        rfl
      have hPre : ∀ sp : GSpec, PostFlat sp.post → ∀ l i ti r,
          preRec sp 0 l i ti = .ok r → flatL r.1 = flatL l := by
        intro sp _ l i ti r h
        simp only [preRec] at h
        cases h
        rfl
      have hTok : ∀ sp : GSpec, PostFlat sp.post → ∀ t u,
          ggoTok sp 0 t = .ok u → u.1.flatT = t.flatT := by
        intro sp _ t u h
        simp only [ggoTok] at h
        cases h
        rfl
      have hStep : ∀ sp : GSpec, PostFlat sp.post → ∀ l c pp t1 sA r,
          ggoStep sp 0 l c pp t1 sA = .ok r → flatL r.1 = flatL l := by
        intro sp _ l c pp t1 sA r h
        simp only [ggoStep] at h
        cases h
        rfl
      exact ⟨hGo, hPre, hTok, hStep⟩
  | succ n ih =>
      obtain ⟨ihGo, ihPre, ihTok, ihStep⟩ := ih
      have hGo : ∀ sp : GSpec, PostFlat sp.post → ∀ l c pp r,
          ggo sp (n + 1) l c pp = .ok r → flatL r.1 = flatL l := by
        intro sp hpost l c pp r h
        simp only [ggo] at h
        cases hget : l.get? c with
        | none => simp only [hget] at h; cases h; rfl
        | some t =>
            simp only [hget] at h
            by_cases hws : t.is_whitespace = true
            · rw [if_pos hws] at h
              exact ihGo sp hpost _ _ _ _ h
            · rw [if_neg hws] at h
              by_cases hrec : (sp.recurseG && t.is_group &&
                  t.kindOf != some sp.cls) = true
              · rw [if_pos hrec] at h
                cases hq0 : ggoTok { sp with recurseG := true } n t with
                | error e => simp only [hq0] at h; cases h
                | ok tv =>
                    rw [hq0] at h
                    obtain ⟨t', sA⟩ := tv
                    have hset : flatL (l.set c t') = flatL l :=
                      flatL_set hget (ihTok { sp with recurseG := true } hpost _ _ hq0)
                    exact (ihStep sp hpost _ _ _ _ _ _ h).trans hset
              · rw [if_neg hrec] at h
                exact ihStep sp hpost _ _ _ _ _ _ h
      have hPre : ∀ sp : GSpec, PostFlat sp.post → ∀ l i ti r,
          preRec sp (n + 1) l i ti = .ok r → flatL r.1 = flatL l := by
        intro sp hpost l i ti r h
        simp only [preRec] at h
        split at h
        · cases h; rfl
        · cases hget : l.get? i with
          | none => simp only [hget] at h; cases h; rfl
          | some t =>
              simp only [hget] at h
              split at h
              · cases hq0 : ggoTok { sp with recurseG := true } n t with
                | error e => simp only [hq0] at h; cases h
                | ok tv =>
                    obtain ⟨t', s0⟩ := tv
                    simp only [hq0] at h
                    cases hq1 : preRec sp n (l.set i t') (i + 1) ti with
                    | error e => simp only [hq1] at h; cases h
                    | ok v1 =>
                        obtain ⟨l', s'⟩ := v1
                        simp only [hq1] at h
                        cases h
                        have hset : flatL (l.set i t') = flatL l :=
                          flatL_set hget
                            (ihTok { sp with recurseG := true } hpost _ _ hq0)
                        simpa using (ihPre sp hpost _ _ _ _ hq1).trans hset
              · exact ihPre sp hpost _ _ _ _ h
      have hTok : ∀ sp : GSpec, PostFlat sp.post → ∀ t u,
          ggoTok sp (n + 1) t = .ok u → u.1.flatT = t.flatT := by
        intro sp hpost t u h
        cases t with
        | tok tt v =>
            simp only [ggoTok] at h
            cases h
            rfl
        | grp k a cs =>
            simp only [ggoTok] at h
            cases hq : ggo sp n cs 0 none with
            | error e => simp only [hq] at h; cases h
            | ok v =>
                obtain ⟨cs', s⟩ := v
                simp only [hq] at h
                cases h
                simpa using ihGo sp hpost _ _ _ _ hq
      have hStep : ∀ sp : GSpec, PostFlat sp.post → ∀ l c pp t1 sA r,
          ggoStep sp (n + 1) l c pp t1 sA = .ok r → flatL r.1 = flatL l := by
        intro sp hpost l c pp t1 sA r h
        rw [ggoStep.eq_def] at h
        dsimp only at h
        by_cases hm : sp.mtc t1 = true
        · rw [if_pos hm] at h
          cases pp with
          | none =>
              cases hq : ggo sp n l (c + 1) (some (c, t1)) with
              | error e => simp only [hq] at h; cases h
              | ok v =>
                  obtain ⟨l5, sC⟩ := v
                  simp only [hq] at h
                  cases h
                  simpa using ihGo sp hpost _ _ _ _ hq
          | some pv =>
              obtain ⟨pidx, prev⟩ := pv
              simp only [] at h
              by_cases hv : (sp.validPrev prev &&
                  sp.validNext ((token_next l c).map (·.2))) = true
              · rw [if_pos hv] at h
                rcases hpp : sp.post l pidx c ((token_next l c).map (·.1)) with
                  ⟨fromI, toI, l2⟩
                have hl2 : flatL l2 = flatL l := by
                  have := hpost l pidx c ((token_next l c).map (·.1))
                  rw [hpp] at this
                  exact this
                simp only [hpp] at h
                by_cases htr : truthy fromI = true
                · rw [if_pos htr] at h
                  cases fromI with
                  | none => simp [truthy] at htr
                  | some fi =>
                      cases toI with
                      | none => cases h
                      | some ti =>
                          cases hq3 : preRec sp n l2 (c + 1) ti with
                          | error e => simp only [hq3] at h; cases h
                          | ok v3 =>
                              obtain ⟨l3, sB⟩ := v3
                              simp only [hq3] at h
                              have hl3 : flatL l3 = flatL l :=
                                (ihPre sp hpost _ _ _ _ hq3).trans hl2
                              cases hq4 : group_tokens sp.cls fi ti sp.extend l3 with
                              | none =>
                                  simp only [hq4] at h
                                  cases hq5 : ggo sp n l3 (c + 1) (some (c, t1)) with
                                  | error e => simp only [hq5] at h; cases h
                                  | ok v5 =>
                                      obtain ⟨l5, sC⟩ := v5
                                      simp only [hq5] at h
                                      cases h
                                      simpa using (ihGo sp hpost _ _ _ _ hq5).trans hl3
                              | some l4 =>
                                  simp only [hq4] at h
                                  have hl4 : flatL l4 = flatL l :=
                                    (group_tokens_flat hq4).trans hl3
                                  cases hg : l4.get? fi with
                                  | some g =>
                                      simp only [hg] at h
                                      cases hq5 : ggo sp n l4 (fi + 1) (some (fi, g)) with
                                      | error e => simp only [hq5] at h; cases h
                                      | ok v5 =>
                                          obtain ⟨l5, sC⟩ := v5
                                          simp only [hq5] at h
                                          cases h
                                          simpa using (ihGo sp hpost _ _ _ _ hq5).trans hl4
                                  | none =>
                                      simp only [hg] at h
                                      cases hq5 : ggo sp n l4 (fi + 1) none with
                                      | error e => simp only [hq5] at h; cases h
                                      | ok v5 =>
                                          obtain ⟨l5, sC⟩ := v5
                                          simp only [hq5] at h
                                          cases h
                                          simpa using (ihGo sp hpost _ _ _ _ hq5).trans hl4
                · rw [if_neg htr] at h
                  cases hq : ggo sp n l2 (c + 1) (some (c, t1)) with
                  | error e => simp only [hq] at h; cases h
                  | ok v =>
                      obtain ⟨l5, sC⟩ := v
                      simp only [hq] at h
                      cases h
                      simpa using (ihGo sp hpost _ _ _ _ hq).trans hl2
              · rw [if_neg hv] at h
                cases hq : ggo sp n l (c + 1) (some (c, t1)) with
                | error e => simp only [hq] at h; cases h
                | ok v =>
                    obtain ⟨l5, sC⟩ := v
                    simp only [hq] at h
                    cases h
                    simpa using ihGo sp hpost _ _ _ _ hq
        · rw [if_neg hm] at h
          cases hq : ggo sp n l (c + 1) (some (c, t1)) with
          | error e => simp only [hq] at h; cases h
          | ok v =>
              obtain ⟨l5, sC⟩ := v
              simp only [hq] at h
              cases h
              simpa using ihGo sp hpost _ _ _ _ hq
      exact ⟨hGo, hPre, hTok, hStep⟩

theorem _group_pres {sp : GSpec} (hpost : PostFlat sp.post) :
    PresT (_group sp) := by
  intro t u h
  unfold _group at h
  cases hq : ggoTok sp (t.size * 4 + 16) t with
  | error e =>
      simp only [hq, Bind.bind, Except.bind] at h
      cases h
  | ok v =>
      obtain ⟨t', s⟩ := v
      simp only [hq, Bind.bind, Except.bind] at h
      cases h
      exact (ggo_flat (t.size * 4 + 16)).2.2.1 sp hpost t _ hq

/-- Flatten preservation of a `passLoop` step. -/
def StepFlat (step : List Tok → Nat → Tok → Except GErr (List Tok × Nat)) :
    Prop :=
  ∀ cs i t m, step cs i t = .ok m → flatL m.1 = flatL cs

theorem passLoop_flat {guard step next} (hstep : StepFlat step) :
    ∀ fuel cs r m, passLoop guard step next fuel cs r = .ok m →
      flatL m = flatL cs := by
  intro fuel
  induction fuel with
  | zero =>
      intro cs r m h
      simp only [passLoop] at h
      cases h
      rfl
  | succ n ih =>
      intro cs r m h
      rcases r with _ | ⟨tidx, tk0⟩
      · simp only [passLoop] at h
        cases h
        rfl
      · simp only [passLoop] at h
        by_cases hg : guard tidx = true
        · rw [if_pos hg] at h
          cases hq : step cs tidx tk0 with
          | error e => simp only [hq] at h; cases h
          | ok v =>
              obtain ⟨cs', cont⟩ := v
              simp only [hq] at h
              exact (ih _ _ _ h).trans (hstep _ _ _ _ hq)
        · rw [if_neg hg] at h
          cases h
          rfl

theorem group_comments_step_flat : StepFlat group_comments_step := by
  intro cs i t m h
  unfold group_comments_step at h
  split at h
  · split at h
    · split at h
      case h_1 hq => cases h; exact group_tokens_flat hq
      case h_2 => cases h
    · cases h
  · cases h; rfl

theorem group_functions_step_flat : StepFlat group_functions_step := by
  intro cs i t m h
  unfold group_functions_step at h
  split at h
  · split at h
    · split at h
      case h_1 hq => cases h; exact group_tokens_flat hq
      case h_2 => cases h
    · cases h; rfl
  · cases h; rfl

theorem gid_ph_step_flat : StepFlat gid_ph_step := by
  intro cs i t m h
  unfold gid_ph_step at h
  dsimp only at h
  split at h
  case h_1 hq => cases h; exact group_tokens_flat hq
  case h_2 => cases h

theorem gid_name_step_flat : StepFlat gid_name_step := by
  intro cs i t m h
  unfold gid_name_step at h
  split at h
  case h_1 hq => cases h; exact group_tokens_flat hq
  case h_2 => cases h

theorem gsigned_step_flat : StepFlat gsigned_step := by
  intro cs i t m h
  unfold gsigned_step at h
  dsimp only at h
  split at h
  · split at h
    · split at h
      case h_1 hq => cases h; exact group_tokens_flat hq
      case h_2 => cases h
    · cases h; rfl
  · cases h; rfl

theorem gorder_step_flat : StepFlat gorder_step := by
  intro cs i t m h
  unfold gorder_step at h
  split at h
  · split at h
    · split at h
      case h_1 hq => cases h; exact group_tokens_flat hq
      case h_2 => cases h
    · cases h; rfl
  · cases h; rfl

theorem gsubq_step_flat : StepFlat gsubq_step := by
  intro cs i t m h
  unfold gsubq_step at h
  dsimp only at h
  split at h
  · split at h
    · split at h
      case h_1 hq => cases h; exact group_tokens_flat hq
      case h_2 => cases h
    · split at h
      · split at h
        case h_1 hq => cases h; exact group_tokens_flat hq
        case h_2 => cases h
      · cases h; rfl
  · cases h; rfl

theorem galiased_step_flat : StepFlat galiased_step := by
  intro cs i t m h
  unfold galiased_step at h
  split at h
  · split at h
    · split at h
      case h_1 hq => cases h; exact group_tokens_flat hq
      case h_2 => cases h
    · cases h; rfl
  · cases h; rfl

theorem gclause_step_flat (k mClose iClose) :
    StepFlat (gclause_step k mClose iClose) := by
  intro cs i t m h
  unfold gclause_step at h
  dsimp only at h
  split at h
  case h_1 hq => cases h; exact group_tokens_flat hq
  case h_2 => cases h

theorem gby_step_flat (k ends) : StepFlat (gby_step k ends) := by
  intro cs i t m h
  unfold gby_step at h
  split at h
  · cases h
  · split at h
    case h_1 hq => cases h; exact group_tokens_flat hq
    case h_2 => cases h

theorem gselproj_step_flat : StepFlat gselproj_step := by
  intro cs i t m h
  unfold gselproj_step at h
  split at h
  · cases h
  · split at h
    case h_1 hq => cases h; exact group_tokens_flat hq
    case h_2 => cases h

theorem gwith_step_flat : StepFlat gwith_step := by
  intro cs i t m h
  unfold gwith_step at h
  split at h
  · cases h
  · split at h
    case h_1 hq => cases h; exact group_tokens_flat hq
    case h_2 => cases h

theorem ginsert_step_flat : StepFlat ginsert_step := by
  intro cs i t m h
  unfold ginsert_step at h
  split at h
  · cases h
  · split at h
    case h_1 hq => cases h; exact group_tokens_flat hq
    case h_2 => cases h

theorem gstmtsel_step_flat (off : Nat) : StepFlat (gstmtsel_step off) := by
  intro cs i t m h
  unfold gstmtsel_step at h
  dsimp only at h
  split at h
  case h_1 hq => cases h; exact group_tokens_flat hq
  case h_2 => cases h

theorem gstmtins_step_flat : StepFlat gstmtins_step := by
  intro cs i t m h
  unfold gstmtins_step at h
  dsimp only at h
  split at h
  · cases h
  · split at h
    case h_1 hq => cases h; exact group_tokens_flat hq
    case h_2 => cases h

theorem onChildren_pres {f : List Tok → Except GErr (List Tok)}
    (hf : ∀ l m, f l = .ok m → flatL m = flatL l) : PresT (onChildren f) := by
  intro t u h
  cases t with
  | tok tt v =>
      simp only [onChildren] at h
      cases h
      rfl
  | grp k a cs =>
      simp only [onChildren] at h
      cases hq : f cs with
      | error e => simp only [hq, Bind.bind, Except.bind] at h; cases h
      | ok cs' =>
          simp only [hq, Bind.bind, Except.bind] at h
          cases h
          simpa using hf _ _ hq

theorem bind_ok {α β : Type} {x : Except GErr α} {f : α → Except GErr β} {b : β}
    (h : (x >>= f) = .ok b) : ∃ a, x = .ok a ∧ f a = .ok b := by
  cases x with
  | error e => simp only [Bind.bind, Except.bind] at h; cases h
  | ok a => exact ⟨a, rfl, by simpa only [Bind.bind, Except.bind] using h⟩

theorem bindL_flat {fa : Except GErr (List Tok)} {g : List Tok → Except GErr (List Tok)}
    {l m : List Tok} (hfa : ∀ x, fa = .ok x → flatL x = flatL l)
    (hg : ∀ x m', g x = .ok m' → flatL m' = flatL x)
    (h : (fa >>= g) = .ok m) : flatL m = flatL l := by
  obtain ⟨x, hq, hfin⟩ := bind_ok h
  exact (hg x m hfin).trans (hfa x hq)

/-!  Flatten preservation of every pass, then of the whole pipeline. -/

theorem group_comments_pres : PresT group_comments := fun t u h =>
  recNode_pres (onChildren_pres fun _ _ hh =>
    passLoop_flat group_comments_step_flat _ _ _ _ hh) t u h

theorem group_brackets_pres : PresT group_brackets := by
  intro t u h
  simp only [group_brackets] at h
  cases h
  exact _group_matching_flat _ _ _ t

theorem group_case_pres : PresT group_case := by
  intro t u h
  simp only [group_case] at h
  cases h
  exact _group_matching_flat _ _ _ t

theorem group_if_pres : PresT group_if := by
  intro t u h
  simp only [group_if] at h
  cases h
  exact _group_matching_flat _ _ _ t

theorem group_for_pres : PresT group_for := by
  intro t u h
  simp only [group_for] at h
  cases h
  exact _group_matching_flat _ _ _ t

theorem group_begin_pres : PresT group_begin := by
  intro t u h
  simp only [group_begin] at h
  cases h
  exact _group_matching_flat _ _ _ t

theorem group_functions_body_flat :
    ∀ l m, group_functions_body l = .ok m → flatL m = flatL l := by
  intro l m h
  unfold group_functions_body at h
  split at h
  · cases h; rfl
  · exact passLoop_flat group_functions_step_flat _ _ _ _ h

theorem group_functions_pres : PresT group_functions := fun t u h =>
  recNode_pres (onChildren_pres group_functions_body_flat) t u h

theorem group_window_function_pres : PresT group_window_function := by
  intro t u h
  unfold group_window_function at h
  refine _group_pres ?_ t u h
  intro l p tix n
  dsimp only
  repeat' split
  all_goals rfl

theorem group_period_pres : PresT group_period := by
  intro t u h
  unfold group_period at h
  exact _group_pres (fun _ _ _ _ => rfl) t u h

theorem group_arrays_pres : PresT group_arrays := by
  intro t u h
  unfold group_arrays at h
  exact _group_pres (fun _ _ _ _ => rfl) t u h

theorem group_identifier_pres : PresT group_identifier := fun t u h =>
  recNode_pres (onChildren_pres fun _ _ hh =>
    bindL_flat (fun _ hx => passLoop_flat gid_ph_step_flat _ _ _ _ hx)
      (fun _ _ hx => passLoop_flat gid_name_step_flat _ _ _ _ hx) hh) t u h

theorem group_signed_identifier_pres : PresT group_signed_identifier := fun t u h =>
  recNode_pres (onChildren_pres fun _ _ hh =>
    passLoop_flat gsigned_step_flat _ _ _ _ hh) t u h

theorem group_order_pres : PresT group_order := fun t u h =>
  onChildren_pres (fun _ _ hh => passLoop_flat gorder_step_flat _ _ _ _ hh) t u h

theorem group_typecasts_pres : PresT group_typecasts := by
  intro t u h
  unfold group_typecasts at h
  exact _group_pres (fun _ _ _ _ => rfl) t u h

theorem group_tzcasts_pres : PresT group_tzcasts := by
  intro t u h
  unfold group_tzcasts at h
  exact _group_pres (fun _ _ _ _ => rfl) t u h

theorem group_typed_literal_pres : PresT group_typed_literal := by
  intro t u h
  unfold group_typed_literal at h
  obtain ⟨t1, hq, hfin⟩ := bind_ok h
  exact (_group_pres (fun _ _ _ _ => rfl) t1 u hfin).trans
    (_group_pres (fun _ _ _ _ => rfl) t t1 hq)

theorem group_operator_pres : PresT group_operator := by
  intro t u h
  unfold group_operator at h
  refine _group_pres ?_ t u h
  intro l p tix n
  exact setTType_flat l tix .Operator

theorem group_comparison_pres : PresT group_comparison := by
  intro t u h
  unfold group_comparison at h
  exact _group_pres (fun _ _ _ _ => rfl) t u h

theorem group_as_pres : PresT group_as := by
  intro t u h
  unfold group_as at h
  exact _group_pres (fun _ _ _ _ => rfl) t u h

theorem group_sub_query_pres : PresT group_sub_query := fun t u h =>
  recNode_pres (onChildren_pres fun _ _ hh =>
    passLoop_flat gsubq_step_flat _ _ _ _ hh) t u h

theorem group_aliased_pres : PresT group_aliased := fun t u h =>
  recNode_pres (onChildren_pres fun _ _ hh =>
    passLoop_flat galiased_step_flat _ _ _ _ hh) t u h

theorem group_assignment_pres : PresT group_assignment := by
  intro t u h
  unfold group_assignment at h
  refine _group_pres ?_ t u h
  intro l p tix n
  dsimp only

theorem group_conditions_list_pres : PresT group_conditions_list := by
  intro t u h
  unfold group_conditions_list at h
  refine _group_pres ?_ t u h
  intro l p tix n
  dsimp only
  repeat' split
  all_goals first
    | rfl
    | exact bumpCount_flat _ _ _

theorem align_comments_pres : PresT align_comments := fun t u h =>
  recNode_pres (fun _ _ hh => by cases hh; rfl) t u h

theorem group_identifier_list_pres : PresT group_identifier_list := by
  intro t u h
  unfold group_identifier_list at h
  refine _group_pres ?_ t u h
  intro l p tix n
  dsimp only
  repeat' split
  all_goals rfl

theorem group_clause_where_pres : PresT group_clause_where := fun t u h =>
  recNode_pres (onChildren_pres fun _ _ hh =>
    passLoop_flat (gclause_step_flat _ _ _) _ _ _ _ hh) t u h

theorem group_clause_from_pres : PresT group_clause_from := fun t u h =>
  recNode_pres (onChildren_pres fun _ _ hh =>
    passLoop_flat (gclause_step_flat _ _ _) _ _ _ _ hh) t u h

theorem group_clause_partition_by_pres : PresT group_clause_partition_by :=
  fun t u h =>
    recNode_pres (onChildren_pres fun _ _ hh =>
      passLoop_flat (gby_step_flat _ _) _ _ _ _ hh) t u h

theorem group_clause_order_by_pres : PresT group_clause_order_by :=
  fun t u h =>
    recNode_pres (onChildren_pres fun _ _ hh =>
      passLoop_flat (gby_step_flat _ _) _ _ _ _ hh) t u h

theorem group_clause_group_by_pres : PresT group_clause_group_by :=
  fun t u h =>
    recNode_pres (onChildren_pres fun _ _ hh =>
      passLoop_flat (gby_step_flat _ _) _ _ _ _ hh) t u h

theorem group_values_body_flat :
    ∀ l m, group_values_body l = .ok m → flatL m = flatL l := by
  intro l m h
  unfold group_values_body at h
  split at h
  · cases h; rfl
  · split at h
    · cases h; rfl
    · split at h
      case h_1 hq => cases h; exact group_tokens_flat hq
      case h_2 => cases h

theorem group_values_pres : PresT group_values := fun t u h =>
  onChildren_pres group_values_body_flat t u h

theorem group_select_projection_pres : PresT group_select_projection :=
  fun t u h =>
    recNode_pres (onChildren_pres fun _ _ hh =>
      passLoop_flat gselproj_step_flat _ _ _ _ hh) t u h

theorem group_clause_with_pres : PresT group_clause_with := fun t u h =>
  recNode_pres (onChildren_pres fun _ _ hh =>
    passLoop_flat gwith_step_flat _ _ _ _ hh) t u h

theorem group_clause_insert_pres : PresT group_clause_insert := fun t u h =>
  recNode_pres (onChildren_pres fun _ _ hh =>
    passLoop_flat ginsert_step_flat _ _ _ _ hh) t u h

theorem group_statement_select_pres : PresT group_statement_select := by
  refine fun t u h => recNode_pres ?_ t u h
  intro t' u' h'
  cases t' with
  | tok tt v =>
      simp only at h'
      cases h'
      rfl
  | grp k a cs =>
      simp only at h'
      obtain ⟨cs', hq, hfin⟩ := bind_ok h'
      cases hfin
      simpa using passLoop_flat (gstmtsel_step_flat _) _ _ _ _ hq

theorem group_statement_union_pres : PresT group_statement_union := by
  intro t u h
  unfold group_statement_union at h
  refine _group_pres ?_ t u h
  intro l p tix n
  dsimp only
  repeat' split
  all_goals rfl

theorem group_statement_insert_pres : PresT group_statement_insert :=
  fun t u h =>
    recNode_pres (onChildren_pres fun _ _ hh =>
      passLoop_flat gstmtins_step_flat _ _ _ _ hh) t u h

/-- Flatten preservation of the whole grouping pipeline: when `group`
succeeds, the leaf values of the result, in order, are those of the
input. -/
theorem group_pres : ∀ s t, group s = .ok t → t.flatT = s.flatT := by
  intro s t h
  unfold group at h
  obtain ⟨s1, h1, h⟩ := bind_ok h
  obtain ⟨s2, h2, h⟩ := bind_ok h
  obtain ⟨s3, h3, h⟩ := bind_ok h
  obtain ⟨s4, h4, h⟩ := bind_ok h
  obtain ⟨s5, h5, h⟩ := bind_ok h
  obtain ⟨s6, h6, h⟩ := bind_ok h
  obtain ⟨s7, h7, h⟩ := bind_ok h
  obtain ⟨s8, h8, h⟩ := bind_ok h
  obtain ⟨s9, h9, h⟩ := bind_ok h
  obtain ⟨s10, h10, h⟩ := bind_ok h
  obtain ⟨s11, h11, h⟩ := bind_ok h
  obtain ⟨s12, h12, h⟩ := bind_ok h
  obtain ⟨s13, h13, h⟩ := bind_ok h
  obtain ⟨s14, h14, h⟩ := bind_ok h
  obtain ⟨s15, h15, h⟩ := bind_ok h
  obtain ⟨s16, h16, h⟩ := bind_ok h
  obtain ⟨s17, h17, h⟩ := bind_ok h
  obtain ⟨s18, h18, h⟩ := bind_ok h
  obtain ⟨s19, h19, h⟩ := bind_ok h
  obtain ⟨s20, h20, h⟩ := bind_ok h
  obtain ⟨s21, h21, h⟩ := bind_ok h
  obtain ⟨s22, h22, h⟩ := bind_ok h
  obtain ⟨s23, h23, h⟩ := bind_ok h
  obtain ⟨s24, h24, h⟩ := bind_ok h
  obtain ⟨s25, h25, h⟩ := bind_ok h
  obtain ⟨s26, h26, h⟩ := bind_ok h
  obtain ⟨s27, h27, h⟩ := bind_ok h
  obtain ⟨s28, h28, h⟩ := bind_ok h
  obtain ⟨s29, h29, h⟩ := bind_ok h
  obtain ⟨s30, h30, h⟩ := bind_ok h
  obtain ⟨s31, h31, h⟩ := bind_ok h
  obtain ⟨s32, h32, h⟩ := bind_ok h
  obtain ⟨s33, h33, h⟩ := bind_ok h
  obtain ⟨s34, h34, h⟩ := bind_ok h
  obtain ⟨s35, h35, h⟩ := bind_ok h
  obtain ⟨s36, h36, h⟩ := bind_ok h
  obtain ⟨s37, h37, h⟩ := bind_ok h
  have e1 : Tok.flatT s1 = Tok.flatT s := group_comments_pres _ _ h1
  have e2 : Tok.flatT s2 = Tok.flatT s1 := group_brackets_pres _ _ h2
  have e3 : Tok.flatT s3 = Tok.flatT s2 := group_parenthesis_pres _ _ h3
  have e4 : Tok.flatT s4 = Tok.flatT s3 := group_case_pres _ _ h4
  have e5 : Tok.flatT s5 = Tok.flatT s4 := group_if_pres _ _ h5
  have e6 : Tok.flatT s6 = Tok.flatT s5 := group_for_pres _ _ h6
  have e7 : Tok.flatT s7 = Tok.flatT s6 := group_begin_pres _ _ h7
  have e8 : Tok.flatT s8 = Tok.flatT s7 := group_functions_pres _ _ h8
  have e9 : Tok.flatT s9 = Tok.flatT s8 := group_window_function_pres _ _ h9
  have e10 : Tok.flatT s10 = Tok.flatT s9 := group_period_pres _ _ h10
  have e11 : Tok.flatT s11 = Tok.flatT s10 := group_arrays_pres _ _ h11
  have e12 : Tok.flatT s12 = Tok.flatT s11 := group_identifier_pres _ _ h12
  have e13 : Tok.flatT s13 = Tok.flatT s12 := group_signed_identifier_pres _ _ h13
  have e14 : Tok.flatT s14 = Tok.flatT s13 := group_order_pres _ _ h14
  have e15 : Tok.flatT s15 = Tok.flatT s14 := group_typecasts_pres _ _ h15
  have e16 : Tok.flatT s16 = Tok.flatT s15 := group_tzcasts_pres _ _ h16
  have e17 : Tok.flatT s17 = Tok.flatT s16 := group_typed_literal_pres _ _ h17
  have e18 : Tok.flatT s18 = Tok.flatT s17 := group_operator_pres _ _ h18
  have e19 : Tok.flatT s19 = Tok.flatT s18 := group_comparison_pres _ _ h19
  have e20 : Tok.flatT s20 = Tok.flatT s19 := group_as_pres _ _ h20
  have e21 : Tok.flatT s21 = Tok.flatT s20 := group_sub_query_pres _ _ h21
  have e22 : Tok.flatT s22 = Tok.flatT s21 := group_aliased_pres _ _ h22
  have e23 : Tok.flatT s23 = Tok.flatT s22 := group_assignment_pres _ _ h23
  have e24 : Tok.flatT s24 = Tok.flatT s23 := group_conditions_list_pres _ _ h24
  have e25 : Tok.flatT s25 = Tok.flatT s24 := align_comments_pres _ _ h25
  have e26 : Tok.flatT s26 = Tok.flatT s25 := group_identifier_list_pres _ _ h26
  have e27 : Tok.flatT s27 = Tok.flatT s26 := group_clause_partition_by_pres _ _ h27
  have e28 : Tok.flatT s28 = Tok.flatT s27 := group_clause_order_by_pres _ _ h28
  have e29 : Tok.flatT s29 = Tok.flatT s28 := group_clause_group_by_pres _ _ h29
  have e30 : Tok.flatT s30 = Tok.flatT s29 := group_values_pres _ _ h30
  have e31 : Tok.flatT s31 = Tok.flatT s30 := group_clause_where_pres _ _ h31
  have e32 : Tok.flatT s32 = Tok.flatT s31 := group_clause_from_pres _ _ h32
  have e33 : Tok.flatT s33 = Tok.flatT s32 := group_select_projection_pres _ _ h33
  have e34 : Tok.flatT s34 = Tok.flatT s33 := group_clause_with_pres _ _ h34
  have e35 : Tok.flatT s35 = Tok.flatT s34 := group_clause_insert_pres _ _ h35
  have e36 : Tok.flatT s36 = Tok.flatT s35 := group_statement_select_pres _ _ h36
  have e37 : Tok.flatT s37 = Tok.flatT s36 := group_statement_union_pres _ _ h37
  have e38 : Tok.flatT t = Tok.flatT s37 := group_statement_insert_pres _ _ h
  exact e38.trans (e37.trans (e36.trans (e35.trans (e34.trans (e33.trans (e32.trans (e31.trans (e30.trans (e29.trans (e28.trans (e27.trans (e26.trans (e25.trans (e24.trans (e23.trans (e22.trans (e21.trans (e20.trans (e19.trans (e18.trans (e17.trans (e16.trans (e15.trans (e14.trans (e13.trans (e12.trans (e11.trans (e10.trans (e9.trans (e8.trans (e7.trans (e6.trans (e5.trans (e4.trans (e3.trans (e2.trans (e1)))))))))))))))))))))))))))))))))))))

/-!  The claim theorems. -/

/-- C1: content preservation — for every input token stream `S`, the
in-order flatten of the tree produced by `group (Statement S)` equals
`S`: the grouping pipeline never reorders, adds or removes lexical
content. -/
theorem c1_flatten_preservation (S : List Tok) (t : Tok)
    (h : group (Statement S) = .ok t) : t.flatT = flatL S := by
  have h2 := group_pres (Statement S) t h
  simpa [Statement] using h2

theorem c1_flatten_preservation_witness :
    group (Statement [Tok.tok .Punctuation "("]) =
      .ok (Statement [Tok.tok .Punctuation "("]) ∧
    (Statement [Tok.tok .Punctuation "("]).flatT =
      flatL [Tok.tok .Punctuation "("] :=
  ⟨rfl, c1_flatten_preservation [Tok.tok .Punctuation "("]
    (Statement [Tok.tok .Punctuation "("]) rfl⟩

/-- C2 (counterexample): the pipeline does not raise on the input
consisting solely of a single open parenthesis — the statement made of
the lone token `(` comes back unchanged, and no error is produced
(`group_parenthesis` only raises when a close parenthesis finds the
open-position stack empty). -/
theorem c2_lone_open_paren_counterexample :
    group (Statement [Tok.tok .Punctuation "("]) =
      .ok (Statement [Tok.tok .Punctuation "("]) ∧
    ∀ e : GErr, group (Statement [Tok.tok .Punctuation "("]) ≠ .error e := by
  have hg : group (Statement [Tok.tok .Punctuation "("]) =
      .ok (Statement [Tok.tok .Punctuation "("]) := rfl
  exact ⟨hg, fun e h => by rw [hg] at h; exact Except.noConfusion h⟩

/-- C2 (amended): only an unbalanced close parenthesis is fatal — the
statement made of the lone token `)` raises `UnbalancedParenthesis`,
while the lone token `(` is tolerated and returned unchanged. -/
theorem c2_unbalanced_amended :
    group (Statement [Tok.tok .Punctuation ")"]) =
      .error GErr.unbalancedParenthesis ∧
    group (Statement [Tok.tok .Punctuation "("]) =
      .ok (Statement [Tok.tok .Punctuation "("]) :=
  ⟨rfl, rfl⟩

/-- C3 (counterexample): grouping is not idempotent — on the
already-grouped statement `c3t0` one run of `group` produces `c3t1` and
a second run wraps the sub-query again, producing `c3t2 ≠ c3t1`. -/
theorem c3_idempotence_counterexample :
    group c3t0 = .ok c3t1 ∧ group c3t1 = .ok c3t2 ∧ c3t2 ≠ c3t1 :=
  ⟨rfl, rfl, by decide⟩

/-- C3 (amended): applying the pipeline twice can change the tree (the
sub-query wrap of `c3_idempotence_counterexample` is reapplied), but a
second run still preserves the flattened lexical content of the
original statement. -/
theorem c3_regroup_flatten (s t u : Tok) (h1 : group s = .ok t)
    (h2 : group t = .ok u) : u.flatT = s.flatT :=
  (group_pres t u h2).trans (group_pres s t h1)

theorem c3_regroup_flatten_witness :
    group c3t0 = .ok c3t1 ∧ group c3t1 = .ok c3t2 ∧
    c3t2.flatT = c3t0.flatT :=
  ⟨rfl, rfl, c3_regroup_flatten c3t0 c3t1 c3t2 rfl rfl⟩

/-- C4 (counterexample): the token returned by `nl` has lexical type
`Whitespace`, not `Whitespace.Newline` as the claim states. -/
theorem c4_nl_ttype_counterexample :
    (nl {} 0).ttype = some TTy.Whitespace ∧
    (nl {} 0).ttype ≠ some TTy.WhitespaceNewline :=
  ⟨rfl, by decide⟩

/-- C4 (amended): for every walker state and every delta, `nl delta`
returns a token of lexical type `Whitespace` (not `Whitespace.Newline`)
whose value is the newline string followed by `char` repeated
`max 0 (offset + indent*width + delta)` times. -/
theorem c4_nl_amended (s : WState) (d : Int) :
    (nl s d).ttype = some TTy.Whitespace ∧
    (nl s d).value =
      s.n ++ repStr s.char (max 0 (s.offset + s.indent * s.width + d)).toNat :=
  ⟨rfl, rfl⟩

/-- C6 (counterexample): the `CREATE`/`TABLE` suppression of
`group_functions` is not statement-global — `c6in` contains both a
`CREATE` and a `TABLE` token among the statement's children, yet the
pass still wraps the `INTEGER(1)` column type inside the nested
parenthesis into a `Function` group. -/
theorem c6_create_table_counterexample :
    (c6in.childrenOf.any fun c => c.value == "CREATE") = true ∧
    (c6in.childrenOf.any fun c => c.value == "TABLE") = true ∧
    group_functions c6in = .ok c6out ∧ c6out ≠ c6in :=
  ⟨by decide, by decide, rfl, by decide⟩

/-- C6 (amended): the suppression is per token list — any token list
whose own elements include both a token valued `CREATE` and a token
valued `TABLE` is returned unchanged by `group_functions_body`, even
when it holds a builtin name followed by a parenthesis. -/
theorem c6_per_list_suppression (cs : List Tok)
    (h1 : (cs.any fun c => c.value == "CREATE") = true)
    (h2 : (cs.any fun c => c.value == "TABLE") = true) :
    group_functions_body cs = .ok cs := by
  simp [group_functions_body, h1, h2]

theorem c6_per_list_suppression_witness :
    (c6sup.any fun c => c.value == "CREATE") = true ∧
    (c6sup.any fun c => c.value == "TABLE") = true ∧
    group_functions_body c6sup = .ok c6sup :=
  ⟨by decide, by decide, c6_per_list_suppression c6sup (by decide) (by decide)⟩

/-- C5: after a split keyword normalized to `BETWEEN` is matched at `i`,
when the next split keyword found after it is an `AND` at `j`, the
search result of `_next_token` is whatever a fresh search after `j`
yields — that `AND` itself is skipped; concretely, splitting the
scenario-D stream `a between 1 and 10 and b > 0` inserts exactly one
newline, before the outer `AND` (index 10), leaving the range `AND`
alone. -/
theorem c5_between_and_skip (l : List Tok) (idx : Option Nat) (fuel : Nat)
    (i j : Nat) (tk tk2 : Tok)
    (h1 : token_next_by isSplitWord l idx = some (i, tk))
    (h2 : tk.normalized = "BETWEEN")
    (h3 : token_next_by isSplitWord l (some i) = some (j, tk2))
    (h4 : tk2.normalized = "AND") :
    _next_token (fuel + 2) l idx = _next_token (fuel + 1) l (some j) ∧
    _split_kwds reindentKwdOff {} c5D =
      c5D.take 10 ++ Tok.tok .Whitespace "\n" :: c5D.drop 10 := by
  refine ⟨?_, by decide⟩
  show _next_token (fuel + 1 + 1) l idx = _next_token (fuel + 1) l (some j)
  rw [_next_token, h1]
  dsimp only
  rw [show _next_token (fuel + 1) l (some i) = some (j, tk2) by
    rw [_next_token, h3]
    dsimp only
    simp [h4]]
  simp [h2, h4]

theorem c5_between_and_skip_witness :
    _next_token 5 c5D none = _next_token 4 c5D (some 6) ∧
    _split_kwds reindentKwdOff {} c5D =
      c5D.take 10 ++ Tok.tok .Whitespace "\n" :: c5D.drop 10 :=
  c5_between_and_skip c5D none 3 2 6 (.tok .Keyword "between")
    (.tok .Keyword "and") rfl rfl rfl rfl

theorem ggo_spans_pos : ∀ fuel : Nat,
    (∀ sp : GSpec, ∀ l c pp r, ggo sp fuel l c pp = .ok r →
      ∀ q ∈ r.2, 0 < q.1) ∧
    (∀ sp : GSpec, ∀ l i ti r, preRec sp fuel l i ti = .ok r →
      ∀ q ∈ r.2, 0 < q.1) ∧
    (∀ sp : GSpec, ∀ t u, ggoTok sp fuel t = .ok u → ∀ q ∈ u.2, 0 < q.1) ∧
    (∀ sp : GSpec, ∀ l c pp t1 sA r, ggoStep sp fuel l c pp t1 sA = .ok r →
      (∀ q ∈ sA, 0 < q.1) → ∀ q ∈ r.2, 0 < q.1) := by
  intro fuel
  induction fuel with
  | zero =>
      refine ⟨?_, ?_, ?_, ?_⟩
      · intro sp l c pp r h
        simp only [ggo] at h
        cases h
        intro q hq
        simp at hq
      · intro sp l i ti r h
        simp only [preRec] at h
        cases h
        intro q hq
        simp at hq
      · intro sp t u h
        simp only [ggoTok] at h
        cases h
        intro q hq
        simp at hq
      · intro sp l c pp t1 sA r h hA
        simp only [ggoStep] at h
        cases h
        exact hA
  | succ n ih =>
      obtain ⟨ihGo, ihPre, ihTok, ihStep⟩ := ih
      have hGo : ∀ sp : GSpec, ∀ l c pp r, ggo sp (n + 1) l c pp = .ok r →
          ∀ q ∈ r.2, 0 < q.1 := by
        intro sp l c pp r h
        simp only [ggo] at h
        cases hget : l.get? c with
        | none => simp only [hget] at h; cases h; intro q hq; simp at hq
        | some t =>
            simp only [hget] at h
            by_cases hws : t.is_whitespace = true
            · rw [if_pos hws] at h
              exact ihGo sp _ _ _ _ h
            · rw [if_neg hws] at h
              by_cases hrec : (sp.recurseG && t.is_group &&
                  t.kindOf != some sp.cls) = true
              · rw [if_pos hrec] at h
                cases hq0 : ggoTok { sp with recurseG := true } n t with
                | error e => simp only [hq0] at h; cases h
                | ok tv =>
                    rw [hq0] at h
                    obtain ⟨t', sA⟩ := tv
                    exact ihStep sp _ _ _ _ _ _ h
                      (ihTok { sp with recurseG := true } _ _ hq0)
              · rw [if_neg hrec] at h
                exact ihStep sp _ _ _ _ _ _ h (by intro q hq; simp at hq)
      have hPre : ∀ sp : GSpec, ∀ l i ti r, preRec sp (n + 1) l i ti = .ok r →
          ∀ q ∈ r.2, 0 < q.1 := by
        intro sp l i ti r h
        simp only [preRec] at h
        split at h
        · cases h; intro q hq; simp at hq
        · cases hget : l.get? i with
          | none => simp only [hget] at h; cases h; intro q hq; simp at hq
          | some t =>
              simp only [hget] at h
              split at h
              · cases hq0 : ggoTok { sp with recurseG := true } n t with
                | error e => simp only [hq0] at h; cases h
                | ok tv =>
                    obtain ⟨t', s0⟩ := tv
                    simp only [hq0] at h
                    cases hq1 : preRec sp n (l.set i t') (i + 1) ti with
                    | error e => simp only [hq1] at h; cases h
                    | ok v1 =>
                        obtain ⟨l', s'⟩ := v1
                        simp only [hq1] at h
                        cases h
                        intro q hq
                        rcases List.mem_append.mp hq with hq | hq
                        · exact ihTok { sp with recurseG := true } _ _ hq0 q hq
                        · exact ihPre sp _ _ _ _ hq1 q hq
              · exact ihPre sp _ _ _ _ h
      have hTok : ∀ sp : GSpec, ∀ t u, ggoTok sp (n + 1) t = .ok u →
          ∀ q ∈ u.2, 0 < q.1 := by
        intro sp t u h
        cases t with
        | tok tt v =>
            simp only [ggoTok] at h
            cases h
            intro q hq
            simp at hq
        | grp k a cs =>
            simp only [ggoTok] at h
            cases hq : ggo sp n cs 0 none with
            | error e => simp only [hq] at h; cases h
            | ok v =>
                obtain ⟨cs', s⟩ := v
                simp only [hq] at h
                cases h
                exact ihGo sp _ _ _ _ hq
      have hStep : ∀ sp : GSpec, ∀ l c pp t1 sA r,
          ggoStep sp (n + 1) l c pp t1 sA = .ok r →
          (∀ q ∈ sA, 0 < q.1) → ∀ q ∈ r.2, 0 < q.1 := by
        intro sp l c pp t1 sA r h hA
        rw [ggoStep.eq_def] at h
        dsimp only at h
        by_cases hm : sp.mtc t1 = true
        · rw [if_pos hm] at h
          cases pp with
          | none =>
              cases hq : ggo sp n l (c + 1) (some (c, t1)) with
              | error e => simp only [hq] at h; cases h
              | ok v =>
                  obtain ⟨l5, sC⟩ := v
                  simp only [hq] at h
                  cases h
                  intro q hq2
                  rcases List.mem_append.mp hq2 with hq2 | hq2
                  · exact hA q hq2
                  · exact ihGo sp _ _ _ _ hq q hq2
          | some pv =>
              obtain ⟨pidx, prev⟩ := pv
              simp only [] at h
              by_cases hv : (sp.validPrev prev &&
                  sp.validNext ((token_next l c).map (·.2))) = true
              · rw [if_pos hv] at h
                rcases hpp : sp.post l pidx c ((token_next l c).map (·.1)) with
                  ⟨fromI, toI, l2⟩
                simp only [hpp] at h
                by_cases htr : truthy fromI = true
                · rw [if_pos htr] at h
                  cases fromI with
                  | none => simp [truthy] at htr
                  | some fi =>
                      have hfi : 0 < fi := by
                        simp [truthy] at htr
                        omega
                      cases toI with
                      | none => cases h
                      | some ti =>
                          cases hq3 : preRec sp n l2 (c + 1) ti with
                          | error e => simp only [hq3] at h; cases h
                          | ok v3 =>
                              obtain ⟨l3, sB⟩ := v3
                              simp only [hq3] at h
                              cases hq4 : group_tokens sp.cls fi ti sp.extend l3 with
                              | none =>
                                  simp only [hq4] at h
                                  cases hq5 : ggo sp n l3 (c + 1) (some (c, t1)) with
                                  | error e => simp only [hq5] at h; cases h
                                  | ok v5 =>
                                      obtain ⟨l5, sC⟩ := v5
                                      simp only [hq5] at h
                                      cases h
                                      intro q hq2
                                      rcases List.mem_append.mp hq2 with hq2 | hq2
                                      · rcases List.mem_append.mp hq2 with hq2 | hq2
                                        · exact hA q hq2
                                        · exact ihPre sp _ _ _ _ hq3 q hq2
                                      · exact ihGo sp _ _ _ _ hq5 q hq2
                              | some l4 =>
                                  simp only [hq4] at h
                                  cases hg : l4.get? fi with
                                  | some g =>
                                      simp only [hg] at h
                                      cases hq5 : ggo sp n l4 (fi + 1) (some (fi, g)) with
                                      | error e => simp only [hq5] at h; cases h
                                      | ok v5 =>
                                          obtain ⟨l5, sC⟩ := v5
                                          simp only [hq5] at h
                                          cases h
                                          intro q hq2
                                          rcases List.mem_append.mp hq2 with hq2 | hq2
                                          · rcases List.mem_append.mp hq2 with hq2 | hq2
                                            · rcases List.mem_append.mp hq2 with hq2 | hq2
                                              · exact hA q hq2
                                              · exact ihPre sp _ _ _ _ hq3 q hq2
                                            · simp at hq2
                                              rw [hq2]
                                              exact hfi
                                          · exact ihGo sp _ _ _ _ hq5 q hq2
                                  | none =>
                                      simp only [hg] at h
                                      cases hq5 : ggo sp n l4 (fi + 1) none with
                                      | error e => simp only [hq5] at h; cases h
                                      | ok v5 =>
                                          obtain ⟨l5, sC⟩ := v5
                                          simp only [hq5] at h
                                          cases h
                                          intro q hq2
                                          rcases List.mem_append.mp hq2 with hq2 | hq2
                                          · rcases List.mem_append.mp hq2 with hq2 | hq2
                                            · rcases List.mem_append.mp hq2 with hq2 | hq2
                                              · exact hA q hq2
                                              · exact ihPre sp _ _ _ _ hq3 q hq2
                                            · simp at hq2
                                              rw [hq2]
                                              exact hfi
                                          · exact ihGo sp _ _ _ _ hq5 q hq2
                · rw [if_neg htr] at h
                  cases hq : ggo sp n l2 (c + 1) (some (c, t1)) with
                  | error e => simp only [hq] at h; cases h
                  | ok v =>
                      obtain ⟨l5, sC⟩ := v
                      simp only [hq] at h
                      cases h
                      intro q hq2
                      rcases List.mem_append.mp hq2 with hq2 | hq2
                      · exact hA q hq2
                      · exact ihGo sp _ _ _ _ hq q hq2
              · rw [if_neg hv] at h
                cases hq : ggo sp n l (c + 1) (some (c, t1)) with
                | error e => simp only [hq] at h; cases h
                | ok v =>
                    obtain ⟨l5, sC⟩ := v
                    simp only [hq] at h
                    cases h
                    intro q hq2
                    rcases List.mem_append.mp hq2 with hq2 | hq2
                    · exact hA q hq2
                    · exact ihGo sp _ _ _ _ hq q hq2
        · rw [if_neg hm] at h
          cases hq : ggo sp n l (c + 1) (some (c, t1)) with
          | error e => simp only [hq] at h; cases h
          | ok v =>
              obtain ⟨l5, sC⟩ := v
              simp only [hq] at h
              cases h
              intro q hq2
              rcases List.mem_append.mp hq2 with hq2 | hq2
              · exact hA q hq2
              · exact ihGo sp _ _ _ _ hq q hq2
      exact ⟨hGo, hPre, hTok, hStep⟩

/-- C8: every span the infix driver wraps starts at a child index
strictly greater than 0 — a falsy (`None` or `0`) `from_idx` skips the
wrap, so an infix pattern whose left operand is its parent's first
child is never grouped. -/
theorem c8_group_spans_positive (sp : GSpec) (fuel : Nat) (t : Tok)
    (u : Tok × List (Nat × Nat)) (h : ggoTok sp fuel t = .ok u) :
    ∀ q ∈ u.2, 0 < q.1 :=
  (ggo_spans_pos fuel).2.2.1 sp t u h

theorem c8_group_spans_positive_witness :
    ggoTok typedLitSpec1 12 (.grp .Statement {} [.tok .Name "w",
      .tok .Keyword "DATE", .tok .StrSingle "'2024-01-01'"]) =
      .ok (.grp .Statement {} [.tok .Name "w",
        .grp .TypedLiteral {} [.tok .Keyword "DATE",
          .tok .StrSingle "'2024-01-01'"]], [(1, 2)]) ∧
    ∀ q ∈ [((1 : Nat), (2 : Nat))], 0 < q.1 :=
  ⟨rfl, c8_group_spans_positive typedLitSpec1 12
    (.grp .Statement {} [.tok .Name "w", .tok .Keyword "DATE",
      .tok .StrSingle "'2024-01-01'"])
    (.grp .Statement {} [.tok .Name "w",
      .grp .TypedLiteral {} [.tok .Keyword "DATE",
        .tok .StrSingle "'2024-01-01'"]], [(1, 2)]) rfl⟩

theorem split_kwds_go_mem (kwdOff : Tok → Int) (s : WState) :
    ∀ fuel l idx x, x ∈ _split_kwds_go kwdOff s fuel l idx →
      x ∈ l ∨ ∃ tk, x = nl s (kwdOff tk) := by
  intro fuel
  induction fuel with
  | zero => intro l idx x hx; exact .inl hx
  | succ m ih =>
      intro l idx x hx
      simp only [_split_kwds_go] at hx
      cases hnt : _next_token (l.length + 1) l idx with
      | none => rw [hnt] at hx; exact .inl hx
      | some p =>
          obtain ⟨tidx, token⟩ := p
          rw [hnt] at hx
          rcases ih _ _ _ hx with hx | hx
          · unfold insertAt at hx
            rcases List.mem_append.mp hx with hx | hx
            · exact .inl (List.take_subset _ _ hx)
            · rcases List.mem_cons.mp hx with hx | hx
              · exact .inr ⟨token, hx⟩
              · exact .inl (List.drop_subset _ _ hx)
          · exact .inr hx

/-- C7: for a `ConditionsList` group, when `conditions_count > 2` the
reindent walker splits the keyword stream under an offset scope
positioned at the column of the list's first token — every token of the
split result is either an original child or a newline token indented to
that column — and then recurses into sublists; when
`conditions_count ≤ 2` it only recurses into sublists, inserting
nothing. -/
theorem c7_conditionslist_split (absCol : Tok → Int)
    (recP : WState → Tok → Tok) (s : WState) (k : Kind) (a : Attrs)
    (cs : List Tok) (first : Tok) (hfirst : cs.head? = some first)
    (hs : 0 ≤ s.leading_ws) :
    (2 < a.conditions_count →
      _process_conditionslist absCol recP s (.grp k a cs) =
        .grp k a (recSublists recP s
          (_split_kwds reindentKwdOff
            (withOffset s (_get_token_offset absCol s first)) cs)) ∧
      ∀ x ∈ _split_kwds reindentKwdOff
          (withOffset s (_get_token_offset absCol s first)) cs,
        x ∈ cs ∨
          x = Tok.tok .Whitespace
            (s.n ++ repStr s.char (max 0 (absCol first)).toNat)) ∧
    (a.conditions_count ≤ 2 →
      _process_conditionslist absCol recP s (.grp k a cs) =
        .grp k a (recSublists recP s cs)) := by
  have hnl : nl (withOffset s (_get_token_offset absCol s first)) 0 =
      Tok.tok .Whitespace
        (s.n ++ repStr s.char (max 0 (absCol first)).toNat) := by
    have hs' : 0 ≤ s.offset + s.indent * s.width := hs
    unfold nl withOffset _get_token_offset WState.leading_ws
    dsimp only
    have hX : max 0 (s.offset + (absCol first -
        max 0 (s.offset + s.indent * s.width)) + s.indent * s.width + 0) =
        max 0 (absCol first) := by
      generalize s.indent * s.width = w at hs' ⊢
      omega
    rw [hX]
  refine ⟨fun hb => ⟨?_, ?_⟩, fun hb => ?_⟩
  · simp [_process_conditionslist, hfirst, hb]
  · intro x hx
    rcases split_kwds_go_mem reindentKwdOff _ _ _ _ x hx with hx | ⟨tk, hx⟩
    · exact .inl hx
    · refine .inr ?_
      rw [hx]
      simpa [reindentKwdOff] using hnl
  · have hb' : ¬ 2 < a.conditions_count := by omega
    simp [_process_conditionslist, hfirst, hb']

theorem c7_conditionslist_split_witness :
    ([Tok.tok .Name "a", Tok.tok .Whitespace " ", Tok.tok .Keyword "and",
      Tok.tok .Whitespace " ", Tok.tok .Name "b"].head? =
        some (Tok.tok .Name "a")) ∧
    (0 : Int) ≤ WState.leading_ws {} ∧
    (2 < (3 : Nat) →
      _process_conditionslist (fun _ => 5) (fun _ t => t) {}
        (.grp .ConditionsList {conditions_count := 3}
          [Tok.tok .Name "a", Tok.tok .Whitespace " ", Tok.tok .Keyword "and",
           Tok.tok .Whitespace " ", Tok.tok .Name "b"]) =
        .grp .ConditionsList {conditions_count := 3}
          (recSublists (fun _ t => t) {}
            (_split_kwds reindentKwdOff
              (withOffset {} (_get_token_offset (fun _ => 5) {}
                (Tok.tok .Name "a")))
              [Tok.tok .Name "a", Tok.tok .Whitespace " ",
               Tok.tok .Keyword "and", Tok.tok .Whitespace " ",
               Tok.tok .Name "b"])) ∧
      ∀ x ∈ _split_kwds reindentKwdOff
          (withOffset {} (_get_token_offset (fun _ => 5) {}
            (Tok.tok .Name "a")))
          [Tok.tok .Name "a", Tok.tok .Whitespace " ", Tok.tok .Keyword "and",
           Tok.tok .Whitespace " ", Tok.tok .Name "b"],
        x ∈ [Tok.tok .Name "a", Tok.tok .Whitespace " ",
             Tok.tok .Keyword "and", Tok.tok .Whitespace " ",
             Tok.tok .Name "b"] ∨
          x = Tok.tok .Whitespace
            ((WState.n {}) ++ repStr (WState.char {})
              (max 0 ((fun (_ : Tok) => (5 : Int)) (Tok.tok .Name "a"))).toNat)) ∧
    ((3 : Nat) ≤ 2 →
      _process_conditionslist (fun _ => 5) (fun _ t => t) {}
        (.grp .ConditionsList {conditions_count := 3}
          [Tok.tok .Name "a", Tok.tok .Whitespace " ", Tok.tok .Keyword "and",
           Tok.tok .Whitespace " ", Tok.tok .Name "b"]) =
        .grp .ConditionsList {conditions_count := 3}
          (recSublists (fun _ t => t) {}
            [Tok.tok .Name "a", Tok.tok .Whitespace " ",
             Tok.tok .Keyword "and", Tok.tok .Whitespace " ",
             Tok.tok .Name "b"])) :=
  ⟨rfl, by decide,
    c7_conditionslist_split (fun _ => 5) (fun _ t => t) {} .ConditionsList
      {conditions_count := 3}
      [Tok.tok .Name "a", Tok.tok .Whitespace " ", Tok.tok .Keyword "and",
       Tok.tok .Whitespace " ", Tok.tok .Name "b"]
      (Tok.tok .Name "a") rfl (by decide)⟩

theorem getq_drop (l : List Tok) : ∀ i j, (l.drop i).get? j = l.get? (i + j) := by
  induction l with
  | nil => intro i j; simp
  | cons x xs ih =>
      intro i j
      cases i with
      | zero => simp
      | succ i' =>
          have h2 : i' + 1 + j = (i' + j) + 1 := by omega
          rw [h2]
          simp only [List.drop_succ_cons, List.get?_cons_succ]
          exact ih i' j

theorem scanAux_some_spec (p : Tok → Bool) : ∀ (ts : List Tok) (b j : Nat),
    scanAux p ts b = some j →
    b ≤ j ∧ ∃ t, ts.get? (j - b) = some t ∧ p t = true := by
  intro ts
  induction ts with
  | nil => intro b j h; simp [scanAux] at h
  | cons x xs ih =>
      intro b j h
      simp only [scanAux] at h
      by_cases hp : p x = true
      · rw [if_pos hp] at h
        cases h
        exact ⟨le_refl _, x, by simp, hp⟩
      · rw [if_neg hp] at h
        obtain ⟨hb, t, hget, hpt⟩ := ih (b + 1) j h
        refine ⟨by omega, t, ?_, hpt⟩
        have hjb : j - b = (j - (b + 1)) + 1 := by omega
        rw [hjb]
        simpa using hget

theorem scanAux_found (p : Tok → Bool) : ∀ (ts : List Tok) (b m : Nat) (t : Tok),
    ts.get? m = some t → p t = true →
    ∃ j, scanAux p ts b = some j ∧ j ≤ b + m := by
  intro ts
  induction ts with
  | nil => intro b m t h _; simp at h
  | cons x xs ih =>
      intro b m t hget hp
      simp only [scanAux]
      by_cases hx : p x = true
      · exact ⟨b, by rw [if_pos hx], by omega⟩
      · rw [if_neg hx]
        cases m with
        | zero =>
            have : x = t := by simpa using hget
            subst this
            exact absurd hp hx
        | succ m' =>
            have hget' : xs.get? m' = some t := by simpa using hget
            obtain ⟨j, hj, hle⟩ := ih (b + 1) m' t hget' hp
            exact ⟨j, hj, by omega⟩

theorem token_next_lt {cs : List Tok} {i j : Nat} {t : Tok}
    (h : token_next cs i = some (j, t)) : i < j ∧ cs.get? j = some t := by
  unfold token_next at h
  cases hs : scanFrom (fun t => !skippable true true t) cs (i + 1) with
  | none => rw [hs] at h; cases h
  | some j' =>
      rw [hs] at h
      dsimp only at h
      cases hg : cs.get? j' with
      | none => rw [hg] at h; cases h
      | some t' =>
          rw [hg] at h
          dsimp only at h
          cases h
          simp only [scanFrom] at hs
          obtain ⟨hb, _⟩ := scanAux_some_spec _ _ _ _ hs
          exact ⟨by omega, hg⟩

theorem token_next_reach {cs : List Tok} {i e : Nat} {pe : Tok}
    (hpe : cs.get? e = some pe) (hns : skippable true true pe = false)
    (hlt : i < e) : ∃ j t, token_next cs i = some (j, t) ∧ j ≤ e := by
  have hget' : (cs.drop (i + 1)).get? (e - (i + 1)) = some pe := by
    rw [getq_drop]
    have : i + 1 + (e - (i + 1)) = e := by omega
    rw [this]
    exact hpe
  obtain ⟨j, hj, hle⟩ := scanAux_found (fun t => !skippable true true t) _
    (i + 1) _ pe hget' (by simp [hns])
  have hj' : scanFrom (fun t => !skippable true true t) cs (i + 1) = some j := hj
  have hjlen : j < cs.length := by
    have helen : e < cs.length := by
      by_contra hc
      rw [List.get?_eq_none.mpr (by omega)] at hpe
      cases hpe
    omega
  cases hg : cs.get? j with
  | none =>
      rw [List.get?_eq_none] at hg
      omega
  | some tj =>
      refine ⟨j, tj, ?_, by omega⟩
      unfold token_next
      rw [hj']
      dsimp only
      rw [hg]

theorem token_next_by_some {p : Tok → Bool} {cs : List Tok} {idx : Option Nat}
    {si : Nat} {stok : Tok}
    (h : token_next_by p cs idx = some (si, stok)) :
    cs.get? si = some stok ∧ p stok = true := by
  unfold token_next_by at h
  dsimp only at h
  have core : ∀ start : Nat,
      (match scanFrom p cs start with
       | some j =>
           match cs.get? j with
           | some t => some (j, t)
           | none => none
       | none => none) = some (si, stok) →
      cs.get? si = some stok ∧ p stok = true := by
    intro start h2
    cases hs : scanFrom p cs start with
    | none => rw [hs] at h2; cases h2
    | some j' =>
        rw [hs] at h2
        dsimp only at h2
        cases hg : cs.get? j' with
        | none => rw [hg] at h2; cases h2
        | some t' =>
            rw [hg] at h2
            dsimp only at h2
            cases h2
            simp only [scanFrom] at hs
            obtain ⟨hb, t, hget, hpt⟩ := scanAux_some_spec _ _ _ _ hs
            rw [getq_drop] at hget
            have heq : start + (si - start) = si := by omega
            rw [heq] at hget
            rw [hget] at hg
            cases hg
            exact ⟨hget, hpt⟩
  cases idx with
  | none => exact core 0 h
  | some i0 => exact core (i0 + 1) h

theorem gvalues_scan_none_start (cs : List Tok) (m : Nat) (acc : Option Nat) :
    gvalues_scan cs m none acc = acc := by
  cases m <;> rfl

theorem gvalues_scan_stable (cs : List Tok) (b : Nat)
    (hall : ∀ j t, b ≤ j → cs.get? j = some t → isParenTok t = false) :
    ∀ fuel i tk acc, b ≤ i → cs.get? i = some tk →
      gvalues_scan cs fuel (some (i, tk)) acc = acc := by
  intro fuel
  induction fuel with
  | zero => intro i tk acc _ _; rfl
  | succ m ih =>
      intro i tk acc hbi hget
      have htk : (tk.kindOf == some Kind.Parenthesis) = false :=
        hall i tk hbi hget
      simp only [gvalues_scan, htk, Bool.false_eq_true, if_false]
      cases hnt : token_next cs i with
      | none => exact gvalues_scan_none_start cs m acc
      | some q =>
          obtain ⟨j, tk'⟩ := q
          obtain ⟨hij, hgj⟩ := token_next_lt hnt
          exact ih j tk' acc (by omega) hgj

theorem gvalues_scan_last (cs : List Tok) (ei : Nat) (pe : Tok)
    (hpe : cs.get? ei = some pe) (hp : isParenTok pe = true)
    (hafter : ∀ j t, ei < j → cs.get? j = some t → isParenTok t = false) :
    ∀ fuel i tk acc, cs.length - i < fuel → i ≤ ei → cs.get? i = some tk →
      gvalues_scan cs fuel (some (i, tk)) acc = some ei := by
  have helen : ei < cs.length := by
    by_contra hc
    rw [List.get?_eq_none.mpr (by omega)] at hpe
    cases hpe
  intro fuel
  induction fuel with
  | zero => intro i tk acc h _ _; exact absurd h (Nat.not_lt_zero _)
  | succ m ih =>
      intro i tk acc hfuel hie hget
      rcases eq_or_lt_of_le hie with heq | hlt
      · subst heq
        have htk : tk = pe := by
          rw [hget] at hpe
          exact Option.some.inj hpe
        subst htk
        have hp' : (tk.kindOf == some Kind.Parenthesis) = true := hp
        simp only [gvalues_scan, hp', if_true]
        cases hnt : token_next cs i with
        | none => exact gvalues_scan_none_start cs m (some i)
        | some q =>
            obtain ⟨j, tk'⟩ := q
            obtain ⟨hij, hgj⟩ := token_next_lt hnt
            exact gvalues_scan_stable cs (i + 1)
              (fun j' t' hj' hg' => hafter j' t' (by omega) hg')
              m j tk' (some i) (by omega) hgj
      · have hns : skippable true true pe = false := by
          cases pe with
          | tok tt v => simp [isParenTok, Tok.kindOf] at hp
          | grp k a cs2 =>
              have hk : k = Kind.Parenthesis := by
                simpa [isParenTok, Tok.kindOf] using hp
              subst hk
              simp [skippable, Tok.is_whitespace]
        obtain ⟨j, tk', hnt, hje⟩ := token_next_reach hpe hns hlt
        obtain ⟨hij, hgj⟩ := token_next_lt hnt
        simp only [gvalues_scan]
        rw [hnt]
        exact ih j tk' _ (by omega) hje hgj

theorem group_tokens_leaf_wrap (k : Kind) (cs : List Tok) (si ei : Nat)
    (tt : TTy) (v : String) (hget : cs.get? si = some (.tok tt v))
    (hle : si ≤ ei) (hlen : ei < cs.length) :
    group_tokens k si ei true cs =
      some (cs.take si ++
        .grp k {} ((cs.drop si).take (ei + 1 - si)) :: cs.drop (ei + 1)) := by
  obtain ⟨rest, hslice⟩ :
      ∃ rest, (cs.drop si).take (ei + 1 - si) = .tok tt v :: rest := by
    have h0 : (cs.drop si).get? 0 = some (.tok tt v) := by
      rw [getq_drop]
      simpa using hget
    cases hd : cs.drop si with
    | nil => rw [hd] at h0; simp at h0
    | cons y ys =>
        rw [hd] at h0
        have hy : y = .tok tt v := by simpa using h0
        subst hy
        refine ⟨ys.take (ei - si), ?_⟩
        have : ei + 1 - si = (ei - si) + 1 := by omega
        rw [this]
        rfl
  unfold group_tokens
  rw [if_pos ⟨hle, hlen⟩, hslice]

theorem noParenAfter_spec {cs : List Tok} {si : Nat}
    (h : noParenAfter cs si = true) :
    ∀ j t, si < j → cs.get? j = some t → isParenTok t = false := by
  intro j t hj hget
  have hmem : t ∈ cs.drop (si + 1) := by
    have : (cs.drop (si + 1)).get? (j - (si + 1)) = some t := by
      rw [getq_drop]
      have : si + 1 + (j - (si + 1)) = j := by omega
      rw [this]
      exact hget
    exact List.get?_mem this
  have := List.all_eq_true.mp h t hmem
  simpa using this

/-- C10: with a `VALUES` keyword present among the children,
`group_values` wraps one `Values` group from that keyword through the
last `Parenthesis` sibling occurring anywhere after it, the intervening
tokens absorbed into the span; with no `Parenthesis` after the keyword,
or no `VALUES` keyword at all, the children are returned unchanged and
no error is raised. -/
theorem c10_values_span (cs : List Tok) :
    (token_next_by (fun tk => tk.mtch .Keyword (some ["VALUES"])) cs none =
        none →
      group_values_body cs = .ok cs) ∧
    ∀ si stok,
      token_next_by (fun tk => tk.mtch .Keyword (some ["VALUES"])) cs none =
        some (si, stok) →
      (noParenAfter cs si = true → group_values_body cs = .ok cs) ∧
      ∀ ei, lastParenAfter cs si ei = true →
        group_values_body cs =
          .ok (cs.take si ++
            .grp .Values {} ((cs.drop si).take (ei + 1 - si)) ::
              cs.drop (ei + 1)) := by
  constructor
  · intro h
    unfold group_values_body
    rw [h]
  · intro si stok h
    obtain ⟨hget, hmt⟩ := token_next_by_some h
    obtain ⟨tt, v, hstok⟩ : ∃ tt v, stok = .tok tt v := by
      cases stok with
      | tok tt v => exact ⟨tt, v, rfl⟩
      | grp k a cs2 => simp [Tok.mtch] at hmt
    have hnp : isParenTok stok = false := by
      rw [hstok]
      rfl
    constructor
    · intro hnone
      have hall : ∀ j t, si ≤ j → cs.get? j = some t →
          isParenTok t = false := by
        intro j t hj hg
        rcases eq_or_lt_of_le hj with heq | hlt
        · subst heq
          rw [hg] at hget
          cases hget
          exact hnp
        · exact noParenAfter_spec hnone j t hlt hg
      have hscan := gvalues_scan_stable cs si hall (cs.length + 1) si stok
        none (le_refl _) hget
      unfold group_values_body
      rw [h]
      dsimp only
      rw [hscan]
    · intro ei hlast
      have hlast' := hlast
      simp only [lastParenAfter, Bool.and_eq_true, decide_eq_true_eq] at hlast'
      obtain ⟨⟨hsiei, hpei⟩, hafterB⟩ := hlast'
      obtain ⟨pe, hpe, hppe⟩ : ∃ pe, cs.get? ei = some pe ∧
          isParenTok pe = true := by
        cases hg : cs.get? ei with
        | none => rw [hg] at hpei; cases hpei
        | some t => rw [hg] at hpei; exact ⟨t, rfl, hpei⟩
      have hafter : ∀ j t, ei < j → cs.get? j = some t →
          isParenTok t = false := by
        intro j t hj hg
        have hmem : t ∈ cs.drop (ei + 1) := by
          have hd : (cs.drop (ei + 1)).get? (j - (ei + 1)) = some t := by
            rw [getq_drop]
            have : ei + 1 + (j - (ei + 1)) = j := by omega
            rw [this]
            exact hg
          exact List.get?_mem hd
        have := List.all_eq_true.mp hafterB t hmem
        simpa using this
      have hscan := gvalues_scan_last cs ei pe hpe hppe hafter
        (cs.length + 1) si stok none (by omega) (le_of_lt hsiei) hget
      have hlen : ei < cs.length := by
        by_contra hc
        rw [List.get?_eq_none.mpr (by omega)] at hpe
        cases hpe
      have hwrap := group_tokens_leaf_wrap .Values cs si ei tt v
        (hstok ▸ hget) (le_of_lt hsiei) hlen
      unfold group_values_body
      rw [h]
      dsimp only
      rw [hscan]
      dsimp only
      rw [hwrap]

theorem c10_values_span_witness :
    (token_next_by (fun tk => tk.mtch .Keyword (some ["VALUES"])) c10vin
        none = some (0, Tok.tok .Keyword "VALUES")) ∧
    lastParenAfter c10vin 0 5 = true ∧
    group_values_body c10vin =
      .ok (c10vin.take 0 ++
        .grp .Values {} ((c10vin.drop 0).take 6) :: c10vin.drop 6) :=
  ⟨rfl, by decide,
    ((c10_values_span c10vin).2 0 (Tok.tok .Keyword "VALUES") rfl).2 5
      (by decide)⟩

theorem drop_len_cons (pre : List Tok) (x : Tok) (rest : List Tok) :
    (pre ++ x :: rest).drop (pre.length + 1) = rest := by
  rw [show pre ++ x :: rest = (pre ++ [x]) ++ rest by simp]
  rw [show pre.length + 1 = (pre ++ [x]).length by simp]
  exact List.drop_left _ _

theorem getq_at_len (pre : List Tok) (x : Tok) (rest : List Tok) :
    (pre ++ x :: rest).get? pre.length = some x := by
  have h := getq_drop (pre ++ x :: rest) pre.length 0
  rw [List.drop_left] at h
  simpa using h.symm

theorem scanFrom_ge_len (p : Tok → Bool) (l : List Tok) (s : Nat)
    (h : l.length ≤ s) : scanFrom p l s = none := by
  simp [scanFrom, List.drop_eq_nil_of_le h, scanAux]

theorem scanFrom_append_cons (p : Tok → Bool) (pre : List Tok) (x : Tok)
    (rest : List Tok) :
    scanFrom p (pre ++ x :: rest) pre.length =
      if p x then some pre.length
      else scanFrom p (pre ++ x :: rest) (pre.length + 1) := by
  unfold scanFrom
  rw [List.drop_left' rfl]
  rw [drop_len_cons]
  rfl

theorem getq_last (pre : List Tok) (y : Tok) (h : pre.getLast? = some y)
    (l2 : List Tok) : (pre ++ l2).get? (pre.length - 1) = some y := by
  induction pre with
  | nil => simp at h
  | cons q qs ih =>
      cases qs with
      | nil =>
          simp only [List.getLast?_singleton] at h
          cases h
          simp
      | cons q2 qs2 =>
          have h' : (q2 :: qs2).getLast? = some y := by
            simpa [List.getLast?_cons_cons] using h
          have hrec := ih h'
          have hlen : (q :: q2 :: qs2).length - 1 =
              ((q2 :: qs2).length - 1) + 1 := by
            simp
          rw [hlen]
          simpa using hrec

theorem insertAt_at_len (pre : List Tok) (x : Tok) (rest : List Tok)
    (w : Tok) : insertAt (pre ++ x :: rest) pre.length w =
      pre ++ w :: x :: rest := by
  unfold insertAt
  rw [List.take_left, List.drop_left]

theorem saofGo_none (f : Nat) (l : List Tok) (s : Nat)
    (h : scanFrom saofOp l s = none) : saofGo true (f + 1) l s = l := by
  simp only [saofGo, h]

theorem saofGo_op_zero (f : Nat) (l : List Tok) (s : Nat)
    (h : scanFrom saofOp l s = some 0) :
    saofGo true (f + 1) l s = saofGo true f l 1 := by
  simp only [saofGo, h]
  cases hg1 : l.get? (0 + 1) with
  | none => simp [hg1]
  | some nt => simp [hg1]

theorem saofGo_op_ws (f : Nat) (l : List Tok) (s i : Nat) (y : Tok)
    (h : scanFrom saofOp l s = some i) (hne : i ≠ 0)
    (hy : l.get? (i - 1) = some y)
    (hyw : (y.ttype != some TTy.Whitespace) = false) :
    saofGo true (f + 1) l s = saofGo true f l (i + 1) := by
  have hbeq : (i == 0) = false := by simpa using hne
  have hy2 : l[i - 1]? = some y := by simpa using hy
  have hyw2 : y.ttype = some TTy.Whitespace := by simpa using hyw
  simp only [saofGo, h]
  cases hg1 : l.get? (i + 1) with
  | none => simp [hg1, hbeq, hy2, hyw2]
  | some nt => simp [hg1, hbeq, hy2, hyw2]

theorem saofGo_op_insert (f : Nat) (l : List Tok) (s i : Nat) (y : Tok)
    (h : scanFrom saofOp l s = some i) (hne : i ≠ 0)
    (hy : l.get? (i - 1) = some y)
    (hyw : (y.ttype != some TTy.Whitespace) = true) :
    saofGo true (f + 1) l s =
      saofGo true f (insertAt l i (.tok .Whitespace " ")) (i + 2) := by
  have hbeq : (i == 0) = false := by simpa using hne
  have hy2 : l[i - 1]? = some y := by simpa using hy
  have hyw2 : ¬ y.ttype = some TTy.Whitespace := by simpa using hyw
  simp only [saofGo, h]
  cases hg1 : l.get? (i + 1) with
  | none => simp [hg1, hbeq, hy2, hyw2]
  | some nt => simp [hg1, hbeq, hy2, hyw2]

theorem saofGo_spec : ∀ (suf : List Tok) (fuel : Nat) (pre : List Tok),
    suf.length < fuel →
    saofGo true fuel (pre ++ suf) pre.length =
      pre ++ saofSpecGo pre.getLast? suf := by
  intro suf
  induction suf with
  | nil =>
      intro fuel pre h
      cases fuel with
      | zero => omega
      | succ f =>
          rw [saofGo_none f _ _ (scanFrom_ge_len _ _ _ (by simp))]
          simp [saofSpecGo]
  | cons x rest ih =>
      intro fuel pre h
      cases fuel with
      | zero => omega
      | succ f =>
          have hscan := scanFrom_append_cons saofOp pre x rest
          by_cases hx : saofOp x = true
          · rw [if_pos hx] at hscan
            by_cases hpre : pre = []
            · subst hpre
              rw [show ([] : List Tok).length = 0 from rfl] at hscan ⊢
              rw [saofGo_op_zero f _ _ hscan]
              have hrw : ([] : List Tok) ++ x :: rest = [x] ++ rest := by simp
              rw [hrw, show (1 : Nat) = ([x] : List Tok).length from rfl]
              rw [ih f [x] (by simp only [List.length_cons] at h; omega)]
              simp [saofSpecGo, hx]
            · have hne : pre.length ≠ 0 := by
                have := List.length_pos.mpr hpre
                omega
              obtain ⟨y, hy⟩ :=
                Option.isSome_iff_exists.mp (List.getLast?_isSome.mpr hpre)
              have hgy : (pre ++ x :: rest).get? (pre.length - 1) = some y :=
                getq_last pre y hy (x :: rest)
              by_cases hyw : (y.ttype != some TTy.Whitespace) = true
              · rw [saofGo_op_insert f _ _ _ y hscan hne hgy hyw]
                rw [insertAt_at_len]
                have hrw : pre ++ Tok.tok .Whitespace " " :: x :: rest =
                    (pre ++ [Tok.tok .Whitespace " ", x]) ++ rest := by simp
                rw [hrw]
                rw [show pre.length + 2 =
                  (pre ++ [Tok.tok .Whitespace " ", x]).length by simp]
                rw [ih f _ (by simp only [List.length_cons] at h; omega)]
                have hlast : (pre ++ [Tok.tok .Whitespace " ", x]).getLast? =
                    some x := by
                  rw [show pre ++ [Tok.tok .Whitespace " ", x] =
                    (pre ++ [Tok.tok .Whitespace " "]) ++ [x] by simp]
                  exact List.getLast?_concat _
                rw [hlast]
                simp [saofSpecGo, hx, hy, hyw]
              · rw [saofGo_op_ws f _ _ _ y hscan hne hgy
                  (by simpa using hyw)]
                have hrw : pre ++ x :: rest = (pre ++ [x]) ++ rest := by simp
                rw [hrw, show pre.length + 1 = (pre ++ [x]).length by simp]
                rw [ih f _ (by simp only [List.length_cons] at h; omega)]
                rw [List.getLast?_concat]
                have hyw' : (y.ttype != some TTy.Whitespace) = false := by
                  simpa using hyw
                simp [saofSpecGo, hx, hy, hyw']
          · rw [if_neg hx] at hscan
            have hstep : saofGo true (f + 1) (pre ++ x :: rest) pre.length =
                saofGo true (f + 1) (pre ++ x :: rest) (pre.length + 1) := by
              simp only [saofGo, hscan]
            rw [hstep]
            have hrw : pre ++ x :: rest = (pre ++ [x]) ++ rest := by simp
            rw [hrw, show pre.length + 1 = (pre ++ [x]).length by simp]
            rw [ih (f + 1) _ (by simp only [List.length_cons] at h; omega)]
            rw [List.getLast?_concat]
            have hx' : saofOp x = false := by simpa using hx
            simp [saofSpecGo, hx']

/-- C9: processing a token list that lies inside a `SignedIdentifier`
group (the within-flag on), `SpacesAroundOperatorsFilter` never inserts
a space after an `Operator`/`Comparison` token, but still inserts one
before it whenever the preceding sibling exists and is not
whitespace-typed — the result is exactly the reference transformation
that does only the before-insertions. -/
theorem c9_signed_identifier_spaces (l : List Tok) :
    saofList true l = saofSpecGo none l := by
  have h := saofGo_spec l (l.length + 1) [] (by omega)
  simpa [saofList] using h

end SqlParse
